import Mathlib

/-!
Verification of the mask/unmask secrets handler (scripts/secrets_handler.py).

The program scans two configured text files with fixed regular expressions of
the shape (literal-key)(value-zone)(suffix), replaces every matched value zone
by the mask token "******", records the original values in order in a side
store keyed by file path, and can later restore them positionally.

We embed the two regex families that actually occur in the configuration:
  docker style:  (KEY=)([^\s-]+)()          on docker-compose.yml
  yaml style:    (key:\s*")([^"]*)(")       on configs/config.yaml
together with their derived masked forms used by unmask, where the value-zone
sub-pattern is replaced by a literal match for the mask token.

Text is modelled as List Char.  re.sub with a stateful replacement function is
modelled by a fueled left-to-right scanner that at each position tries to
match the pattern, emits the replacement and continues after the match, or
copies one character; Python's re.sub never rescans emitted replacements,
and our scanner does not either.

The file is organised as definitions first, then theorems.
-/

namespace Secrets

/-- Whitespace test modelling the regex class \s on the ASCII range. -/
def isSpaceCh (c : Char) : Bool :=
  c = ' ' || c = '\t' || c = '\n' || c = '\r' || c = '\x0b' || c = '\x0c'

/-- Character class [^\s-] : the docker value zone accepts exactly these. -/
def dockerVal (c : Char) : Bool :=
  !(isSpaceCh c) && !(c = '-')

/-- Character class [^"] : the yaml value zone accepts exactly these. -/
def noQ (c : Char) : Bool :=
  !(c = '"')

/-- The mask token "******" (constant MASK in the source). -/
def MASKs : List Char := ['*', '*', '*', '*', '*', '*']

/-- Strip an expected literal from the front of the input, returning the
remainder on success (the engine's literal-text matching step). -/
def stripLit : List Char → List Char → Option (List Char)
  | [], l => some l
  | _ :: _, [] => none
  | k :: ks, c :: cs => if c = k then stripLit ks cs else none

/-- Expect a double quote and return what follows it. -/
def afterQuote : List Char → Option (List Char)
  | [] => none
  | c :: t => if c = '"' then some t else none

/-- The three capture groups of a successful match together with the text
following the match. -/
structure MatchGroups where
  g1 : List Char
  g2 : List Char
  g3 : List Char
  rest : List Char
deriving DecidableEq, Repr

/-- The pattern shapes occurring in FILES_CONFIG and their derived masked
forms used by unmask. -/
inductive Pat where
  | docker (key : List Char)
  | yaml (key : List Char)
  | dockerMasked (key : List Char)
  | yamlMasked (key : List Char)
deriving DecidableEq, Repr

/-- Deriving the masked-form search pattern of a pattern: the source builds it
with pattern.replace, substituting the value-zone sub-pattern by the escaped
mask token. -/
def maskedForm : Pat → Pat
  | Pat.docker key => Pat.dockerMasked key
  | Pat.yaml key => Pat.yamlMasked key
  | Pat.dockerMasked key => Pat.dockerMasked key
  | Pat.yamlMasked key => Pat.yamlMasked key

/-- Attempt to match a pattern at the head of the input, with the regex
engine's semantics for these shapes: literal prefixes match literally, \s* and
the value classes are greedy, and a quoted value zone requires its closing
quote. -/
def matchAt : Pat → List Char → Option MatchGroups
  | Pat.docker key, l =>
    (stripLit key l).bind fun r =>
      if r.takeWhile dockerVal = [] then none
      else some ⟨key, r.takeWhile dockerVal, [], r.dropWhile dockerVal⟩
  | Pat.yaml key, l =>
    (stripLit key l).bind fun r =>
      (afterQuote (r.dropWhile isSpaceCh)).bind fun r2 =>
        (afterQuote (r2.dropWhile noQ)).bind fun rest =>
          some ⟨key ++ r.takeWhile isSpaceCh ++ ['"'], r2.takeWhile noQ, ['"'], rest⟩
  | Pat.dockerMasked key, l =>
    (stripLit key l).bind fun r =>
      (stripLit MASKs r).bind fun rest =>
        some ⟨key, MASKs, [], rest⟩
  | Pat.yamlMasked key, l =>
    (stripLit key l).bind fun r =>
      (afterQuote (r.dropWhile isSpaceCh)).bind fun r2 =>
        (stripLit MASKs r2).bind fun r3 =>
          (afterQuote r3).bind fun rest =>
            some ⟨key ++ r.takeWhile isSpaceCh ++ ['"'], MASKs, ['"'], rest⟩

/-- Fueled core of re.sub with a stateful replacement function: scan left to
right; at a match, thread the state through the replacer, emit its output and
continue after the match; otherwise copy one character.  The fuel only serves
termination and is irrelevant once it reaches the input length. -/
def reSubF {σ : Type} (p : Pat) (f : σ → MatchGroups → σ × List Char) :
    Nat → σ → List Char → σ × List Char
  | 0, s, l => (s, l)
  | _ + 1, s, [] => (s, [])
  | fuel + 1, s, c :: cs =>
    match matchAt p (c :: cs) with
    | some g =>
      let fr := f s g
      let t := reSubF p f fuel fr.1 g.rest
      (t.1, fr.2 ++ t.2)
    | none =>
      let t := reSubF p f fuel s cs
      (t.1, c :: t.2)

/-- re.sub of a pattern over the content with a stateful replacer. -/
def reSub {σ : Type} (p : Pat) (f : σ → MatchGroups → σ × List Char)
    (s : σ) (l : List Char) : σ × List Char :=
  reSubF p f l.length s l

/-- One scan event: a copied character, or a match with its three groups. -/
inductive Ev where
  | lit : Char → Ev
  | mat : List Char → List Char → List Char → Ev
deriving DecidableEq, Repr

/-- Fueled event trace of scanning the content with a pattern. -/
def scanF (p : Pat) : Nat → List Char → List Ev
  | 0, _ => []
  | _ + 1, [] => []
  | fuel + 1, c :: cs =>
    match matchAt p (c :: cs) with
    | some g => Ev.mat g.g1 g.g2 g.g3 :: scanF p fuel g.rest
    | none => Ev.lit c :: scanF p fuel cs

/-- The event trace of scanning the content with a pattern. -/
def scan (p : Pat) (l : List Char) : List Ev := scanF p l.length l

/-- The mask replacement closure: skip a value zone already equal to the mask
token; otherwise append the value to the captured sequence and rewrite the
match as prefix, mask token, suffix. -/
def mask_replacer (fs : List (List Char)) (g : MatchGroups) :
    List (List Char) × List Char :=
  if g.g2 = MASKs then (fs, g.g1 ++ g.g2 ++ g.g3)
  else (fs ++ [g.g2], g.g1 ++ MASKs ++ g.g3)

/-- The unmask replacement closure: with values remaining and the zone equal
to the mask token, pop the front value into the zone; otherwise emit the match
unchanged. -/
def unmask_replacer (cur : List (List Char)) (g : MatchGroups) :
    List (List Char) × List Char :=
  match cur with
  | [] => ([], g.g1 ++ g.g2 ++ g.g3)
  | v :: vs =>
    if g.g2 = MASKs then (vs, g.g1 ++ v ++ g.g3)
    else (v :: vs, g.g1 ++ g.g2 ++ g.g3)

/-- Concatenation of scan events, recovering the scanned content. -/
def evConcat : List Ev → List Char
  | [] => []
  | Ev.lit c :: es => c :: evConcat es
  | Ev.mat a b c :: es => a ++ b ++ c ++ evConcat es

/-- The content produced by the mask pass, read off the scan events. -/
def mRender : List Ev → List Char
  | [] => []
  | Ev.lit c :: es => c :: mRender es
  | Ev.mat a _ c :: es => a ++ MASKs ++ c ++ mRender es

/-- The values captured by the mask pass, read off the scan events: matched
value zones in scan order, skipping zones already equal to the mask token. -/
def mCaps : List Ev → List (List Char)
  | [] => []
  | Ev.lit _ :: es => mCaps es
  | Ev.mat _ b _ :: es => if b = MASKs then mCaps es else b :: mCaps es

/-- The content produced by the unmask pass, read off the scan events while
consuming stored values from the front. -/
def uRender : List Ev → List (List Char) → List Char
  | [], _ => []
  | Ev.lit c :: es, cur => c :: uRender es cur
  | Ev.mat a b c :: es, [] => a ++ b ++ c ++ uRender es []
  | Ev.mat a b c :: es, v :: vs =>
    if b = MASKs then a ++ v ++ c ++ uRender es vs
    else a ++ b ++ c ++ uRender es (v :: vs)

/-- The stored values left over after the unmask pass. -/
def uRemaining : List Ev → List (List Char) → List (List Char)
  | [], cur => cur
  | Ev.lit _ :: es, cur => uRemaining es cur
  | Ev.mat _ _ _ :: es, [] => uRemaining es []
  | Ev.mat _ b _ :: es, v :: vs =>
    if b = MASKs then uRemaining es vs else uRemaining es (v :: vs)

/-- Processing one file in mask: fold the patterns in list order over the
current content, threading the captured sequence, exactly as the source does
with the shared file_secrets closure. -/
def maskFile (pats : List Pat) (l : List Char) :
    List (List Char) × List Char :=
  pats.foldl (fun acc p => reSub p mask_replacer acc.1 acc.2) ([], l)

/-- Processing one file in unmask: fold the derived masked-form patterns in
the same order over the current content, consuming the stored sequence. -/
def unmaskFile (pats : List Pat) (stored : List (List Char)) (l : List Char) :
    List (List Char) × List Char :=
  pats.foldl (fun acc p => reSub (maskedForm p) unmask_replacer acc.1 acc.2)
    (stored, l)

/-- Captured values of the whole mask pass over a pattern list, stated as an
independent recursion: pattern list order outer, scan order inner, each
pattern scanning the content as already rewritten by its predecessors. -/
def capsFold : List Pat → List Char → List (List Char)
  | [], _ => []
  | p :: ps, l => mCaps (scan p l) ++ capsFold ps (mRender (scan p l))

/-- Content after the whole mask pass over a pattern list, stated as an
independent recursion. -/
def contFold : List Pat → List Char → List Char
  | [], l => l
  | p :: ps, l => contFold ps (mRender (scan p l))

/-- Stored values left after the whole unmask pass over a pattern list,
stated as an independent recursion. -/
def remFold : List Pat → List (List Char) → List Char → List (List Char)
  | [], cur, _ => cur
  | p :: ps, cur, l =>
    remFold ps (uRemaining (scan (maskedForm p) l) cur)
      (uRender (scan (maskedForm p) l) cur)

/-- Content after the whole unmask pass over a pattern list, stated as an
independent recursion. -/
def ucontFold : List Pat → List (List Char) → List Char → List Char
  | [], _, l => l
  | p :: ps, cur, l =>
    ucontFold ps (uRemaining (scan (maskedForm p) l) cur)
      (uRender (scan (maskedForm p) l) cur)

/-! ### The system level: FILES_CONFIG, the secret store file, mask() and
unmask() over the two configured files. -/

/-- Patterns configured for docker-compose.yml, in order. -/
def composePats : List Pat :=
  [Pat.docker "DATABASE_PASSWORD=".toList,
   Pat.docker "MYSQL_ROOT_PASSWORD=".toList]

/-- Patterns configured for configs/config.yaml, in order. -/
def yamlPats : List Pat :=
  [Pat.yaml "password:".toList,
   Pat.yaml "oss_access_key:".toList,
   Pat.yaml "oss_secret_key:".toList,
   Pat.yaml "api_key:".toList]

def composePath : String := "docker-compose.yml"

def yamlPath : String := "configs/config.yaml"

/-- State of .secrets.json on disk: missing, unparsable, or a parsed mapping
from file path to stored value sequence. -/
inductive StoreDisk where
  | absent
  | corrupt
  | good (m : List (String × List (List Char)))
deriving DecidableEq, Repr

/-- System state: the contents of the two configured files (none = the file
does not exist), the store file, and the lines printed so far. -/
structure Sys where
  compose : Option (List Char)
  yamlCfg : Option (List Char)
  disk : StoreDisk
  out : List String
deriving DecidableEq, Repr

/-- load_secrets: a missing store gives an empty mapping silently; a store
that fails to parse logs the error and gives an empty mapping; otherwise the
parsed mapping. -/
def load_secrets : StoreDisk → List (String × List (List Char)) × List String
  | StoreDisk.absent => ([], [])
  | StoreDisk.corrupt => ([], ["Error loading secrets"])
  | StoreDisk.good m => (m, [])

/-- Dictionary lookup in the store mapping. -/
def lookupA : List (String × List (List Char)) → String → Option (List (List Char))
  | [], _ => none
  | (k', v) :: t, k => if k' = k then some v else lookupA t k

/-- Dictionary assignment in the store mapping: replace the value at an
existing key in place, else append the binding. -/
def insertA : List (String × List (List Char)) → String → List (List Char) →
    List (String × List (List Char))
  | [], k, v => [(k, v)]
  | (k', v') :: t, k, v =>
    if k' = k then (k, v) :: t else (k', v') :: insertA t k v

/-- One file of the mask loop: skip a missing file; otherwise run all
patterns, and only when values were captured update the store entry, write
the new content and report. -/
def maskStep (pats : List Pat) (path : String) (content : Option (List Char))
    (secrets : List (String × List (List Char))) :
    Option (List Char) × List (String × List (List Char)) × List String :=
  match content with
  | none => (none, secrets, [])
  | some l =>
    let r := maskFile pats l
    if r.1 = [] then (some l, secrets, [])
    else (some r.2, insertA secrets path r.1,
      ["Masked " ++ toString r.1.length ++ " secrets in " ++ path])

/-- mask(): load the store, process both configured files in configuration
order, then always save the store. -/
def maskSys (s : Sys) : Sys :=
  let ld := load_secrets s.disk
  let st1 := maskStep composePats composePath s.compose ld.1
  let st2 := maskStep yamlPats yamlPath s.yamlCfg st1.2.1
  { compose := st1.1, yamlCfg := st2.1,
    disk := StoreDisk.good st2.2.1,
    out := s.out ++ ld.2 ++ st1.2.2 ++ st2.2.2 }

/-- One file of the unmask loop: skip a missing file or a file without a
store entry; otherwise run all masked-form patterns consuming the stored
sequence, write the content back and report the number restored. -/
def unmaskStep (pats : List Pat) (path : String) (content : Option (List Char))
    (secrets : List (String × List (List Char))) :
    Option (List Char) × List String :=
  match content with
  | none => (none, [])
  | some l =>
    match lookupA secrets path with
    | none => (some l, [])
    | some stored =>
      let r := unmaskFile pats stored l
      (some r.2,
        ["Unmasked " ++ toString (stored.length - r.1.length) ++
          " secrets in " ++ path])

def noSecretsMsg : String :=
  "No secrets found to restore. Please make sure .secrets.json exists."

/-- unmask(): load the store; with an empty mapping print the notice and
stop; otherwise process both configured files.  The store file itself is
never rewritten by unmask. -/
def unmaskSys (s : Sys) : Sys :=
  let ld := load_secrets s.disk
  if ld.1 = [] then
    { s with out := s.out ++ ld.2 ++ [noSecretsMsg] }
  else
    let r1 := unmaskStep composePats composePath s.compose ld.1
    let r2 := unmaskStep yamlPats yamlPath s.yamlCfg ld.1
    { compose := r1.1, yamlCfg := r2.1, disk := s.disk,
      out := s.out ++ ld.2 ++ r1.2 ++ r2.2 }

/-- Does the text contain a double quote? -/
def hasQ (l : List Char) : Bool := l.any fun c => !(noQ c)

/-- Whether a docker pattern with this key matches at the head of the input:
the key must be a literal prefix and be followed by a value character. -/
def dTest (key X : List Char) : Bool :=
  match stripLit key X with
  | none => false
  | some r => !(r.takeWhile dockerVal).isEmpty

/-- Whether a yaml pattern with this key matches at the head of the input:
the key, then spaces, then a quote, then a later closing quote. -/
def yTest (key X : List Char) : Bool :=
  match stripLit key X with
  | none => false
  | some r =>
    match afterQuote (r.dropWhile isSpaceCh) with
    | none => false
    | some r2 => hasQ r2

/-- A scan event whose value zone is not already the mask token. -/
def evNoMask : Ev → Bool
  | Ev.lit _ => true
  | Ev.mat _ b _ => !(b = MASKs)

/-- No value zone matched during the scan already equals the mask token. -/
def noMaskVals (p : Pat) (l : List Char) : Bool := (scan p l).all evNoMask

/-- All matched value zones of a scan, duplicates included. -/
def matVals : List Ev → List (List Char)
  | [] => []
  | Ev.lit _ :: es => matVals es
  | Ev.mat _ b _ :: es => b :: matVals es

/-- The number of matches in a scan. -/
def matCount : List Ev → Nat
  | [] => 0
  | Ev.lit _ :: es => matCount es
  | Ev.mat _ _ _ :: es => matCount es + 1

/-- A scan event that copies a character unchanged. -/
def isLitEv : Ev → Bool
  | Ev.lit _ => true
  | Ev.mat _ _ _ => false

/-- The original (non-derived) pattern shapes. -/
def isOrigPat : Pat → Bool
  | Pat.docker _ => true
  | Pat.yaml _ => true
  | Pat.dockerMasked _ => false
  | Pat.yamlMasked _ => false

/-- The derived masked pattern shapes. -/
def isMaskedPat : Pat → Bool
  | Pat.docker _ => false
  | Pat.yaml _ => false
  | Pat.dockerMasked _ => true
  | Pat.yamlMasked _ => true

/-- The mapping carried by the store file, empty when absent or corrupt. -/
def storeMapOf : StoreDisk → List (String × List (List Char))
  | StoreDisk.good m => m
  | StoreDisk.absent => []
  | StoreDisk.corrupt => []

/-- Total number of masked-form matches consumed across the unmask fold,
following the same sequence of intermediate contents as the fold itself. -/
def dynCount : List Pat → List (List Char) → List Char → Nat
  | [], _, _ => 0
  | p :: ps, cur, l =>
    matCount (scan (maskedForm p) l) +
      dynCount ps (uRemaining (scan (maskedForm p) l) cur)
        (uRender (scan (maskedForm p) l) cur)

/-- A scan event that is either a copied character or a match whose value
zone is the mask token. -/
def evMasked : Ev → Bool
  | Ev.lit _ => true
  | Ev.mat _ b _ => b = MASKs

/-- The position check for saturation: no match here, or a match whose value
zone is already the mask token. -/
def posOK (p : Pat) (w : List Char) : Bool :=
  match matchAt p w with
  | some g => decide (g.g2 = MASKs)
  | none => true

/-- Saturation: at every position of the text, a match of the pattern (if
any) has the mask token as its value zone.  A saturated text is a fixed
point of the mask pass. -/
def SatB (p : Pat) : List Char → Bool
  | [] => true
  | c :: cs => posOK p (c :: cs) && SatB p cs

/-- Key without star characters. -/
def noStar (key : List Char) : Bool := key.all fun c => !(c = '*')

/-- A character that may appear in a yaml key: not whitespace, not a double
quote, not a star. -/
def yChar (c : Char) : Bool := !(isSpaceCh c) && noQ c && !(c = '*')

/-- Well-formed docker key: nonempty, value characters only, no stars. -/
def wfDockerKey (key : List Char) : Bool :=
  !key.isEmpty && key.all dockerVal && noStar key

/-- Well-formed yaml key: nonempty, no spaces, no quotes, no stars. -/
def wfYamlKey (key : List Char) : Bool :=
  !key.isEmpty && key.all (fun c => !(isSpaceCh c)) && key.all noQ && noStar key

/-- kp occurs as a prefix of a proper suffix of kq only when it equals that
suffix. -/
def noInnerB (kp kq : List Char) : Bool :=
  (kq.tails).all fun s => decide (s = kq) || !(decide (kp <+: s)) || decide (kp = s)

/-- Counterexample content for the round-trip claim: the DATABASE_PASSWORD
value zone is itself of the shape of a MYSQL_ROOT_PASSWORD assignment. -/
def ceContent : List Char := "MYSQL_ROOT_PASSWORD=DATABASE_PASSWORD=a".toList

/-- Counterexample content for the duplicate-value claim: two identical
literal values x in the first pattern's value zones, preceded by an
interfering nested assignment. -/
def ce5Content : List Char :=
  "MYSQL_ROOT_PASSWORD=DATABASE_PASSWORD=a DATABASE_PASSWORD=x DATABASE_PASSWORD=x".toList

/-! ### Theorems -/

theorem stripLit_eq {key l r : List Char} (h : stripLit key l = some r) :
    l = key ++ r := by
  induction key generalizing l with
  | nil => simp [stripLit] at h; simp [h]
  | cons k ks ih =>
    cases l with
    | nil => simp [stripLit] at h
    | cons c cs =>
      simp only [stripLit] at h
      split at h
      · next heq => subst heq; simpa using ih h
      · exact absurd h (by simp)

theorem stripLit_append (key r : List Char) :
    stripLit key (key ++ r) = some r := by
  induction key with
  | nil => simp [stripLit]
  | cons k ks ih => simp [stripLit, ih]

theorem afterQuote_eq {l t : List Char} (h : afterQuote l = some t) :
    l = '"' :: t := by
  cases l with
  | nil => simp [afterQuote] at h
  | cons c cs =>
    simp only [afterQuote] at h
    split at h
    · next hc => subst hc; injection h with h; subst h; rfl
    · exact absurd h (by simp)

/-- A successful match decomposes the input as the three groups followed by
the rest. -/
theorem matchAt_decomp {p : Pat} {l : List Char} {g : MatchGroups}
    (h : matchAt p l = some g) : l = g.g1 ++ g.g2 ++ g.g3 ++ g.rest := by
  cases p with
  | docker key =>
    simp only [matchAt, Option.bind_eq_some] at h
    obtain ⟨r, hs, h⟩ := h
    split at h
    · exact absurd h (by simp)
    · injection h with h; subst h
      simp [stripLit_eq hs, List.takeWhile_append_dropWhile]
  | yaml key =>
    simp only [matchAt, Option.bind_eq_some] at h
    obtain ⟨r, hs, r2, hq1, rest, hq2, h⟩ := h
    injection h with h; subst h
    have h1 : r = r.takeWhile isSpaceCh ++ ('"' :: r2) := by
      conv_lhs => rw [← List.takeWhile_append_dropWhile (p := isSpaceCh) (l := r)]
      rw [afterQuote_eq hq1]
    have h2 : r2 = r2.takeWhile noQ ++ ('"' :: rest) := by
      conv_lhs => rw [← List.takeWhile_append_dropWhile (p := noQ) (l := r2)]
      rw [afterQuote_eq hq2]
    simp only
    rw [stripLit_eq hs]
    conv_lhs => rw [h1]
    conv_lhs => rw [h2]
    simp
  | dockerMasked key =>
    simp only [matchAt, Option.bind_eq_some] at h
    obtain ⟨r, hs, rest, hm, h⟩ := h
    injection h with h; subst h
    simp [stripLit_eq hs, stripLit_eq hm]
  | yamlMasked key =>
    simp only [matchAt, Option.bind_eq_some] at h
    obtain ⟨r, hs, r2, hq1, r3, hm, rest, hq2, h⟩ := h
    injection h with h; subst h
    have h1 : r = r.takeWhile isSpaceCh ++ ('"' :: r2) := by
      conv_lhs => rw [← List.takeWhile_append_dropWhile (p := isSpaceCh) (l := r)]
      rw [afterQuote_eq hq1]
    simp only
    rw [stripLit_eq hs]
    conv_lhs => rw [h1]
    conv_lhs => rw [stripLit_eq hm]
    conv_lhs => rw [afterQuote_eq hq2]
    simp

/-- Every successful match has a nonempty middle or suffix group. -/
theorem matchAt_g2_g3_ne {p : Pat} {l : List Char} {g : MatchGroups}
    (h : matchAt p l = some g) : g.g2 ≠ [] ∨ g.g3 ≠ [] := by
  cases p with
  | docker key =>
    left
    simp only [matchAt, Option.bind_eq_some] at h
    obtain ⟨r, hs, h⟩ := h
    split at h
    · exact absurd h (by simp)
    · next hne => injection h with h; subst h; exact hne
  | yaml key =>
    right
    simp only [matchAt, Option.bind_eq_some] at h
    obtain ⟨r, hs, r2, hq1, rest, hq2, h⟩ := h
    injection h with h; subst h; simp
  | dockerMasked key =>
    left
    simp only [matchAt, Option.bind_eq_some] at h
    obtain ⟨r, hs, rest, hm, h⟩ := h
    injection h with h; subst h; simp [MASKs]
  | yamlMasked key =>
    right
    simp only [matchAt, Option.bind_eq_some] at h
    obtain ⟨r, hs, r2, hq1, r3, hm, rest, hq2, h⟩ := h
    injection h with h; subst h; simp

/-- Every successful match consumes at least one character. -/
theorem matchAt_rest_lt {p : Pat} {l : List Char} {g : MatchGroups}
    (h : matchAt p l = some g) : g.rest.length < l.length := by
  have hd := matchAt_decomp h
  rw [hd]
  simp only [List.length_append]
  rcases matchAt_g2_g3_ne h with hne | hne
  · have : 0 < g.g2.length := List.length_pos.mpr hne
    omega
  · have : 0 < g.g3.length := List.length_pos.mpr hne
    omega

theorem reSubF_fuel {σ : Type} (p : Pat) (f : σ → MatchGroups → σ × List Char) :
    ∀ (n m : Nat) (s : σ) (l : List Char), l.length ≤ n → l.length ≤ m →
      reSubF p f n s l = reSubF p f m s l := by
  intro n
  induction n with
  | zero =>
    intro m s l hn _
    have : l = [] := List.length_eq_zero.mp (Nat.le_zero.mp hn)
    subst this
    cases m <;> rfl
  | succ n ih =>
    intro m s l hn hm
    cases l with
    | nil => cases m <;> rfl
    | cons c cs =>
      cases m with
      | zero => simp at hm
      | succ m =>
        cases hmc : matchAt p (c :: cs) with
        | some g =>
          have hlt := matchAt_rest_lt hmc
          simp only [List.length_cons] at hn hm hlt
          simp only [reSubF, hmc]
          rw [ih m (f s g).1 g.rest (by omega) (by omega)]
        | none =>
          simp only [List.length_cons] at hn hm
          simp only [reSubF, hmc]
          rw [ih m s cs (by omega) (by omega)]

theorem reSub_nil {σ : Type} (p : Pat) (f : σ → MatchGroups → σ × List Char)
    (s : σ) : reSub p f s [] = (s, []) := rfl

theorem reSub_match {σ : Type} {p : Pat} {c : Char} {cs : List Char}
    {g : MatchGroups} (f : σ → MatchGroups → σ × List Char) (s : σ)
    (h : matchAt p (c :: cs) = some g) :
    reSub p f s (c :: cs) =
      ((reSub p f (f s g).1 g.rest).1,
        (f s g).2 ++ (reSub p f (f s g).1 g.rest).2) := by
  have hlt := matchAt_rest_lt h
  simp only [List.length_cons] at hlt
  simp only [reSub, List.length_cons, reSubF, h]
  rw [reSubF_fuel p f cs.length g.rest.length (f s g).1 g.rest (by omega) (by omega)]

theorem reSub_none {σ : Type} {p : Pat} {c : Char} {cs : List Char}
    (f : σ → MatchGroups → σ × List Char) (s : σ)
    (h : matchAt p (c :: cs) = none) :
    reSub p f s (c :: cs) = ((reSub p f s cs).1, c :: (reSub p f s cs).2) := by
  simp only [reSub, List.length_cons, reSubF, h]

theorem scanF_fuel (p : Pat) :
    ∀ (n m : Nat) (l : List Char), l.length ≤ n → l.length ≤ m →
      scanF p n l = scanF p m l := by
  intro n
  induction n with
  | zero =>
    intro m l hn _
    have : l = [] := List.length_eq_zero.mp (Nat.le_zero.mp hn)
    subst this
    cases m <;> rfl
  | succ n ih =>
    intro m l hn hm
    cases l with
    | nil => cases m <;> rfl
    | cons c cs =>
      cases m with
      | zero => simp at hm
      | succ m =>
        cases hmc : matchAt p (c :: cs) with
        | some g =>
          have hlt := matchAt_rest_lt hmc
          simp only [List.length_cons] at hn hm hlt
          simp only [scanF, hmc]
          rw [ih m g.rest (by omega) (by omega)]
        | none =>
          simp only [List.length_cons] at hn hm
          simp only [scanF, hmc]
          rw [ih m cs (by omega) (by omega)]

theorem scan_nil (p : Pat) : scan p [] = [] := rfl

theorem scan_match {p : Pat} {c : Char} {cs : List Char} {g : MatchGroups}
    (h : matchAt p (c :: cs) = some g) :
    scan p (c :: cs) = Ev.mat g.g1 g.g2 g.g3 :: scan p g.rest := by
  have hlt := matchAt_rest_lt h
  simp only [List.length_cons] at hlt
  simp only [scan, List.length_cons, scanF, h]
  rw [scanF_fuel p cs.length g.rest.length g.rest (by omega) (by omega)]

theorem scan_none {p : Pat} {c : Char} {cs : List Char}
    (h : matchAt p (c :: cs) = none) :
    scan p (c :: cs) = Ev.lit c :: scan p cs := by
  simp only [scan, List.length_cons, scanF, h]

/-- A strong induction principle following the scan structure of a pattern. -/
theorem scan_induction (p : Pat) (motive : List Char → Prop)
    (hnil : motive [])
    (hmat : ∀ c cs g, matchAt p (c :: cs) = some g → motive g.rest →
      motive (c :: cs))
    (hlit : ∀ c cs, matchAt p (c :: cs) = none → motive cs → motive (c :: cs)) :
    ∀ l, motive l := by
  have key : ∀ n l, l.length = n → motive l := by
    intro n
    induction n using Nat.strong_induction_on with
    | _ n ih =>
      intro l hn
      cases l with
      | nil => exact hnil
      | cons c cs =>
        have hn' : cs.length + 1 = n := by simpa using hn
        cases hmc : matchAt p (c :: cs) with
        | some g =>
          have hlt := matchAt_rest_lt hmc
          simp only [List.length_cons] at hlt
          exact hmat c cs g hmc (ih g.rest.length (by omega) g.rest rfl)
        | none =>
          exact hlit c cs hmc (ih cs.length (by omega) cs rfl)
  exact fun l => key l.length l rfl

/-- The scan events concatenate back to the content. -/
theorem evConcat_scan (p : Pat) : ∀ l, evConcat (scan p l) = l := by
  apply scan_induction p (fun l => evConcat (scan p l) = l)
  · simp [scan_nil, evConcat]
  · intro c cs g h ih
    rw [scan_match h]
    simp only [evConcat, ih]
    exact (matchAt_decomp h).symm
  · intro c cs h ih
    rw [scan_none h]
    simp [evConcat, ih]

/-- The mask pass equals rendering the scan events and appending the captured
value zones, in scan order, to the incoming sequence. -/
theorem reSub_mask_eq (p : Pat) :
    ∀ l (fs : List (List Char)),
      reSub p mask_replacer fs l = (fs ++ mCaps (scan p l), mRender (scan p l)) := by
  apply scan_induction p
    (fun l => ∀ fs, reSub p mask_replacer fs l =
      (fs ++ mCaps (scan p l), mRender (scan p l)))
  · intro fs
    simp [reSub_nil, scan_nil, mCaps, mRender]
  · intro c cs g h ih fs
    rw [reSub_match mask_replacer fs h, scan_match h]
    by_cases hm : g.g2 = MASKs
    · simp only [mask_replacer, if_pos hm, mCaps, mRender, ih]
      simp [hm]
    · simp only [mask_replacer, if_neg hm, mCaps, mRender, ih]
      simp [hm]
  · intro c cs h ih fs
    rw [reSub_none mask_replacer fs h, scan_none h]
    simp [mCaps, mRender, ih]

/-- The unmask pass equals rendering the scan events while consuming stored
values from the front, returning the unconsumed remainder. -/
theorem reSub_unmask_eq (p : Pat) :
    ∀ l (cur : List (List Char)),
      reSub p unmask_replacer cur l =
        (uRemaining (scan p l) cur, uRender (scan p l) cur) := by
  apply scan_induction p
    (fun l => ∀ cur, reSub p unmask_replacer cur l =
      (uRemaining (scan p l) cur, uRender (scan p l) cur))
  · intro cur
    simp [reSub_nil, scan_nil, uRemaining, uRender]
  · intro c cs g h ih cur
    rw [reSub_match unmask_replacer cur h, scan_match h]
    cases cur with
    | nil =>
      simp only [unmask_replacer, uRemaining, uRender, ih]
    | cons v vs =>
      by_cases hm : g.g2 = MASKs
      · simp only [unmask_replacer, if_pos hm, uRemaining, uRender, ih]
      · simp only [unmask_replacer, if_neg hm, uRemaining, uRender, ih]
  · intro c cs h ih cur
    rw [reSub_none unmask_replacer cur h, scan_none h]
    simp [uRemaining, uRender, ih]

theorem maskFile_general (pats : List Pat) :
    ∀ (l : List Char) (fs : List (List Char)),
      pats.foldl (fun acc p => reSub p mask_replacer acc.1 acc.2) (fs, l) =
        (fs ++ capsFold pats l, contFold pats l) := by
  induction pats with
  | nil => intro l fs; simp [capsFold, contFold]
  | cons p ps ih =>
    intro l fs
    rw [List.foldl_cons,
      show reSub p mask_replacer (fs, l).1 (fs, l).2
          = (fs ++ mCaps (scan p l), mRender (scan p l)) from reSub_mask_eq p l fs,
      ih]
    simp [capsFold, contFold]

/-- The mask pass decomposes into per-pattern captured values and rendered
content. -/
theorem maskFile_eq (pats : List Pat) (l : List Char) :
    maskFile pats l = (capsFold pats l, contFold pats l) := by
  rw [maskFile, maskFile_general]
  simp only [List.nil_append]

/-- The unmask pass decomposes into per-pattern consumed values and rendered
content. -/
theorem unmaskFile_eq (pats : List Pat) :
    ∀ (stored : List (List Char)) (l : List Char),
      unmaskFile pats stored l = (remFold pats stored l, ucontFold pats stored l) := by
  induction pats with
  | nil => intro stored l; simp [unmaskFile, remFold, ucontFold]
  | cons p ps ih =>
    intro stored l
    rw [unmaskFile, List.foldl_cons,
      show reSub (maskedForm p) unmask_replacer (stored, l).1 (stored, l).2
          = (uRemaining (scan (maskedForm p) l) stored,
             uRender (scan (maskedForm p) l) stored)
        from reSub_unmask_eq (maskedForm p) l stored]
    rw [remFold, ucontFold]
    exact ih _ _

theorem takeWhile_all {q : Char → Bool} :
    ∀ {v : List Char}, v.all q = true →
      v.takeWhile q = v ∧ v.dropWhile q = [] := by
  intro v
  induction v with
  | nil => intro _; simp
  | cons x xs ih =>
    intro hv
    simp only [List.all_cons, Bool.and_eq_true] at hv
    simp [List.takeWhile_cons, List.dropWhile_cons, hv.1, ih hv.2]

theorem takeWhile_append_cons {q : Char → Bool} {d : Char} {t : List Char}
    (hd : q d = false) :
    ∀ {v : List Char}, v.all q = true →
      (v ++ d :: t).takeWhile q = v ∧ (v ++ d :: t).dropWhile q = d :: t := by
  intro v
  induction v with
  | nil => intro _; simp [List.takeWhile_cons, List.dropWhile_cons, hd]
  | cons x xs ih =>
    intro hv
    simp only [List.all_cons, Bool.and_eq_true] at hv
    simp [List.takeWhile_cons, List.dropWhile_cons, hv.1, ih hv.2]

theorem allTakeWhile (q : Char → Bool) (l : List Char) :
    (l.takeWhile q).all q = true := by
  induction l with
  | nil => simp
  | cons x xs ih =>
    by_cases hx : q x
    · simp [List.takeWhile_cons, hx, ih]
    · simp [List.takeWhile_cons, hx]

theorem dropWhile_head_false {q : Char → Bool} :
    ∀ {l : List Char} {d : Char} {t : List Char},
      l.dropWhile q = d :: t → q d = false := by
  intro l
  induction l with
  | nil => intro d t h; simp [List.dropWhile] at h
  | cons x xs ih =>
    intro d t h
    by_cases hx : q x
    · rw [List.dropWhile_cons, if_pos hx] at h
      exact ih h
    · rw [List.dropWhile_cons, if_neg hx] at h
      injection h with h1 _
      subst h1
      simpa using hx

/-- Inversion for a docker match: the groups are the key, a nonempty run of
value characters, an empty suffix, and the rest starts with a non-value
character (or is empty). -/
theorem matchAt_docker_some {key l : List Char} {g : MatchGroups}
    (h : matchAt (Pat.docker key) l = some g) :
    g.g1 = key ∧ g.g3 = [] ∧ g.g2 ≠ [] ∧ g.g2.all dockerVal = true ∧
      (g.rest = [] ∨ ∃ d t, g.rest = d :: t ∧ dockerVal d = false) := by
  simp only [matchAt, Option.bind_eq_some] at h
  obtain ⟨r, hs, h⟩ := h
  split at h
  · exact absurd h (by simp)
  · next hne =>
    injection h with h; subst h
    refine ⟨rfl, rfl, hne, allTakeWhile dockerVal r, ?_⟩
    cases hd : r.dropWhile dockerVal with
    | nil => left; rfl
    | cons d t => right; exact ⟨d, t, rfl, dropWhile_head_false hd⟩

/-- Inversion for a yaml match: the first group is the key, a space run and
the opening quote; the value zone has no quotes; the suffix is the closing
quote. -/
theorem matchAt_yaml_some {key l : List Char} {g : MatchGroups}
    (h : matchAt (Pat.yaml key) l = some g) :
    ∃ ws, g.g1 = key ++ ws ++ ['"'] ∧ ws.all isSpaceCh = true ∧
      g.g2.all noQ = true ∧ g.g3 = ['"'] := by
  simp only [matchAt, Option.bind_eq_some] at h
  obtain ⟨r, hs, r2, hq1, rest, hq2, h⟩ := h
  injection h with h; subst h
  exact ⟨r.takeWhile isSpaceCh, rfl, allTakeWhile isSpaceCh r,
    allTakeWhile noQ r2, rfl⟩

/-- Inversion for a masked docker match. -/
theorem matchAt_dockerMasked_some {key l : List Char} {g : MatchGroups}
    (h : matchAt (Pat.dockerMasked key) l = some g) :
    g.g1 = key ∧ g.g2 = MASKs ∧ g.g3 = [] := by
  simp only [matchAt, Option.bind_eq_some] at h
  obtain ⟨r, hs, rest, hm, h⟩ := h
  injection h with h; subst h
  exact ⟨rfl, rfl, rfl⟩

/-- Inversion for a masked yaml match. -/
theorem matchAt_yamlMasked_some {key l : List Char} {g : MatchGroups}
    (h : matchAt (Pat.yamlMasked key) l = some g) :
    ∃ ws, g.g1 = key ++ ws ++ ['"'] ∧ ws.all isSpaceCh = true ∧
      g.g2 = MASKs ∧ g.g3 = ['"'] := by
  simp only [matchAt, Option.bind_eq_some] at h
  obtain ⟨r, hs, r2, hq1, r3, hm, rest, hq2, h⟩ := h
  injection h with h; subst h
  exact ⟨r.takeWhile isSpaceCh, rfl, allTakeWhile isSpaceCh r, rfl, rfl⟩

/-- Construction of a masked docker match from its shape. -/
theorem matchAt_dockerMasked_mk (key X : List Char) :
    matchAt (Pat.dockerMasked key) (key ++ (MASKs ++ X)) =
      some ⟨key, MASKs, [], X⟩ := by
  simp [matchAt, stripLit_append]

/-- Construction of a masked yaml match from its shape. -/
theorem matchAt_yamlMasked_mk (key ws X : List Char)
    (hws : ws.all isSpaceCh = true) :
    matchAt (Pat.yamlMasked key) (key ++ (ws ++ '"' :: (MASKs ++ '"' :: X))) =
      some ⟨key ++ ws ++ ['"'], MASKs, ['"'], X⟩ := by
  have hq : isSpaceCh '"' = false := rfl
  have h1 := takeWhile_append_cons (q := isSpaceCh) (d := '"')
    (t := MASKs ++ '"' :: X) hq hws
  simp [matchAt, stripLit_append, h1.1, h1.2, afterQuote, stripLit_append]

/-- A successful masked docker match implies a successful docker match on the
same input. -/
theorem dockerMasked_imp_docker {key X : List Char}
    (h : (matchAt (Pat.dockerMasked key) X).isSome = true) :
    (matchAt (Pat.docker key) X).isSome = true := by
  rw [Option.isSome_iff_exists] at h
  obtain ⟨g, hg⟩ := h
  obtain ⟨e1, e2, e3⟩ := matchAt_dockerMasked_some hg
  have hd := matchAt_decomp hg
  rw [e1, e2, e3] at hd
  rw [Option.isSome_iff_exists]
  rw [hd]
  simp only [matchAt]
  rw [show key ++ MASKs ++ [] ++ g.rest = key ++ ('*' :: ('*' :: '*' :: '*' :: '*' :: '*' :: [] ++ g.rest)) by simp [MASKs]]
  rw [stripLit_append]
  simp [List.takeWhile_cons, dockerVal, isSpaceCh]

/-- A successful masked yaml match implies a successful yaml match on the
same input. -/
theorem yamlMasked_imp_yaml {key X : List Char}
    (h : (matchAt (Pat.yamlMasked key) X).isSome = true) :
    (matchAt (Pat.yaml key) X).isSome = true := by
  rw [Option.isSome_iff_exists] at h
  obtain ⟨g, hg⟩ := h
  simp only [matchAt, Option.bind_eq_some] at hg
  obtain ⟨r, hs, r2, hq1, r3, hm, rest, hq2, _⟩ := hg
  rw [Option.isSome_iff_exists]
  have hr2 : r2 = MASKs ++ ('"' :: rest) := by
    rw [stripLit_eq hm, afterQuote_eq hq2]
  have hnq : noQ '"' = false := rfl
  have hmq : MASKs.all noQ = true := rfl
  have h2 := takeWhile_append_cons (q := noQ) (d := '"') (t := rest) hnq hmq
  refine ⟨⟨key ++ r.takeWhile isSpaceCh ++ ['"'], MASKs, ['"'], rest⟩, ?_⟩
  simp only [matchAt, Option.bind_eq_some]
  refine ⟨r, hs, r2, hq1, rest, ?_, ?_⟩
  · rw [hr2, h2.2]
    simp [afterQuote]
  · rw [hr2, h2.1]


theorem matchAt_nil (p : Pat) : matchAt p [] = none := by
  cases p <;> rename_i key <;> cases key <;> rfl

theorem reSub_match_any {σ : Type} {p : Pat} {l : List Char} {g : MatchGroups}
    (f : σ → MatchGroups → σ × List Char) (s : σ) (h : matchAt p l = some g) :
    reSub p f s l =
      ((reSub p f (f s g).1 g.rest).1,
        (f s g).2 ++ (reSub p f (f s g).1 g.rest).2) := by
  cases l with
  | nil => rw [matchAt_nil] at h; exact absurd h (by simp)
  | cons c cs => exact reSub_match f s h

theorem hasQ_append_quote (a b : List Char) : hasQ (a ++ '"' :: b) = true := by
  simp [hasQ, List.any_append, List.any_cons, noQ]

theorem dTest_nilkey (X : List Char) :
    dTest [] X = !(X.takeWhile dockerVal).isEmpty := rfl

theorem dTest_cons (k : Char) (ks : List Char) (c : Char) (X : List Char) :
    dTest (k :: ks) (c :: X) = if c = k then dTest ks X else false := by
  by_cases hc : c = k
  · simp [dTest, stripLit, hc]
  · simp [dTest, stripLit, hc]

theorem yTest_cons (k : Char) (ks : List Char) (c : Char) (X : List Char) :
    yTest (k :: ks) (c :: X) = if c = k then yTest ks X else false := by
  by_cases hc : c = k
  · simp [yTest, stripLit, hc]
  · simp [yTest, stripLit, hc]

/-- The docker match decision is preserved when the text after a fixed lead
of at least the key's length changes but keeps a value character first. -/
theorem dTest_congr (key : List Char) :
    ∀ (u w₁ w₂ : List Char) (d₁ d₂ : Char), dockerVal d₁ = true →
      dockerVal d₂ = true → key.length ≤ u.length →
      dTest key (u ++ d₁ :: w₁) = dTest key (u ++ d₂ :: w₂) := by
  induction key with
  | nil =>
    intro u w₁ w₂ d₁ d₂ h1 h2 _
    cases u with
    | nil =>
      simp only [List.nil_append, dTest_nilkey, List.takeWhile_cons, h1, h2]
      rfl
    | cons e u' =>
      by_cases he : dockerVal e
      · simp [dTest_nilkey, List.takeWhile_cons, he]
      · simp [dTest_nilkey, List.takeWhile_cons, he]
  | cons k ks ih =>
    intro u w₁ w₂ d₁ d₂ h1 h2 hlen
    cases u with
    | nil => simp at hlen
    | cons e u' =>
      simp only [List.cons_append, dTest_cons]
      by_cases he : e = k
      · simp only [if_pos he]
        exact ih u' w₁ w₂ d₁ d₂ h1 h2 (by simpa using Nat.le_of_succ_le_succ hlen)
      · simp [he]

theorem yTest_nil_quote (w : List Char) : yTest [] ('"' :: w) = hasQ w := by
  have hq : isSpaceCh '"' = false := by decide
  simp [yTest, stripLit, List.dropWhile_cons, hq, afterQuote]

theorem yTest_nil_space {e : Char} (he : isSpaceCh e = true) (Y : List Char) :
    yTest [] (e :: Y) = yTest [] Y := by
  simp [yTest, stripLit, List.dropWhile_cons, he]

theorem yTest_nil_stuck {e : Char} (h1 : isSpaceCh e = false) (h2 : ¬ e = '"')
    (Y : List Char) : yTest [] (e :: Y) = false := by
  simp [yTest, stripLit, List.dropWhile_cons, h1, afterQuote, h2]

/-- The yaml match decision is preserved when the text after a fixed lead of
at least the key's length followed by a quote changes but keeps a later
closing quote. -/
theorem yTest_congr (key : List Char) :
    ∀ (u w₁ w₂ : List Char), hasQ w₁ = true → hasQ w₂ = true →
      key.length ≤ u.length →
      yTest key (u ++ '"' :: w₁) = yTest key (u ++ '"' :: w₂) := by
  induction key with
  | nil =>
    intro u w₁ w₂ h1 h2 hlen
    clear hlen
    induction u with
    | nil =>
      simp only [List.nil_append]
      rw [yTest_nil_quote, yTest_nil_quote, h1, h2]
    | cons e u' ihu =>
      simp only [List.cons_append]
      by_cases hesp : isSpaceCh e
      · rw [yTest_nil_space hesp, yTest_nil_space hesp]
        exact ihu
      · by_cases heq : e = '"'
        · subst heq
          rw [yTest_nil_quote, yTest_nil_quote,
            hasQ_append_quote, hasQ_append_quote]
        · rw [yTest_nil_stuck (by simpa using hesp) heq,
            yTest_nil_stuck (by simpa using hesp) heq]
  | cons k ks ih =>
    intro u w₁ w₂ h1 h2 hlen
    cases u with
    | nil => simp at hlen
    | cons e u' =>
      simp only [List.cons_append, yTest_cons]
      by_cases he : e = k
      · simp only [if_pos he]
        exact ih u' w₁ w₂ h1 h2 (by simpa using Nat.le_of_succ_le_succ hlen)
      · simp [he]

theorem matchAt_docker_isSome (key X : List Char) :
    (matchAt (Pat.docker key) X).isSome = dTest key X := by
  cases hs : stripLit key X with
  | none => simp [matchAt, dTest, hs]
  | some r =>
    simp only [matchAt, dTest, hs, Option.some_bind]
    by_cases ht : r.takeWhile dockerVal = []
    · simp [ht]
    · simp [ht, List.isEmpty_iff]

theorem afterQuote_dropWhile_isSome :
    ∀ l : List Char, (afterQuote (l.dropWhile noQ)).isSome = hasQ l := by
  intro l
  induction l with
  | nil => rfl
  | cons c t ih =>
    by_cases hc : c = '"'
    · subst hc
      have : noQ '"' = false := rfl
      simp [List.dropWhile_cons, this, afterQuote, hasQ]
    · have hnq : noQ c = true := by simp [noQ, hc]
      have hd : List.dropWhile noQ (c :: t) = List.dropWhile noQ t := by
        simp [List.dropWhile_cons, hnq]
      have hh : hasQ (c :: t) = hasQ t := by
        simp [hasQ, List.any_cons, hnq]
      rw [hd, hh, ih]

theorem matchAt_yaml_isSome (key X : List Char) :
    (matchAt (Pat.yaml key) X).isSome = yTest key X := by
  cases hs : stripLit key X with
  | none => simp [matchAt, yTest, hs]
  | some r =>
    cases hq : afterQuote (r.dropWhile isSpaceCh) with
    | none => simp [matchAt, yTest, hs, hq]
    | some r2 =>
      simp only [matchAt, yTest, hs, hq, Option.some_bind]
      rw [← afterQuote_dropWhile_isSome r2]
      cases hq2 : afterQuote (r2.dropWhile noQ) <;> simp

/-- First-match decomposition of a scan: either the pattern never matches and
the mask render is the identity, or the content splits into a literal lead,
a first match, and a scanned remainder. -/
theorem scan_firstMat (p : Pat) :
    ∀ l, mRender (scan p l) = l ∨
      ∃ a g, l = a ++ (g.g1 ++ g.g2 ++ g.g3 ++ g.rest) ∧
        mRender (scan p l) =
          a ++ (g.g1 ++ MASKs ++ g.g3) ++ mRender (scan p g.rest) ∧
        matchAt p (g.g1 ++ g.g2 ++ g.g3 ++ g.rest) = some g := by
  apply scan_induction p
  · left; simp [scan_nil, mRender]
  · intro c cs g h _
    right
    refine ⟨[], g, by simpa using matchAt_decomp h, ?_, ?_⟩
    · rw [scan_match h]
      simp [mRender]
    · rw [← matchAt_decomp h]
      exact h
  · intro c cs h ih
    rcases ih with heq | ⟨a, g, h1, h2, h3⟩
    · left
      rw [scan_none h]
      simp [mRender, heq]
    · right
      refine ⟨c :: a, g, by rw [List.cons_append, ← h1], ?_, h3⟩
      rw [scan_none h]
      simp only [mRender, List.cons_append]
      rw [h2]

/-- None-transfer for docker: if the pattern does not match at a position of
the original content, it does not match at that position of the masked
content either. -/
theorem nt_docker (key : List Char) {c : Char} {cs : List Char}
    (h : matchAt (Pat.docker key) (c :: cs) = none) :
    matchAt (Pat.docker key) (c :: mRender (scan (Pat.docker key) cs)) = none := by
  rcases scan_firstMat (Pat.docker key) cs with heq | ⟨a, g, h1, h2, h3⟩
  · rw [heq]; exact h
  · obtain ⟨e1, e3, hne, hall, _⟩ := matchAt_docker_some h3
    cases hg2 : g.g2 with
    | nil => exact absurd hg2 hne
    | cons d g2' =>
      have hd : dockerVal d = true := by
        rw [hg2] at hall
        simp only [List.all_cons, Bool.and_eq_true] at hall
        exact hall.1
      have hiso : dTest key (c :: cs) = false := by
        rw [← matchAt_docker_isSome, h]; rfl
      have hcs : c :: cs = (c :: (a ++ key)) ++ d :: (g2' ++ g.rest) := by
        rw [h1, e1, e3, hg2]; simp
      have hmr : c :: mRender (scan (Pat.docker key) cs)
          = (c :: (a ++ key)) ++
            '*' :: (['*', '*', '*', '*', '*'] ++
              mRender (scan (Pat.docker key) g.rest)) := by
        rw [h2, e1, e3]
        simp [MASKs]
      have hlen : key.length ≤ (c :: (a ++ key)).length := by
        simp [List.length_cons, List.length_append]
        omega
      have hcongr := dTest_congr key (c :: (a ++ key))
        (['*', '*', '*', '*', '*'] ++ mRender (scan (Pat.docker key) g.rest))
        (g2' ++ g.rest) '*' d (by decide) hd hlen
      rw [hcs] at hiso
      have hfinal : dTest key (c :: mRender (scan (Pat.docker key) cs)) = false := by
        rw [hmr, hcongr, hiso]
      rw [← matchAt_docker_isSome] at hfinal
      cases hmc : matchAt (Pat.docker key) (c :: mRender (scan (Pat.docker key) cs)) with
      | none => rfl
      | some g' => rw [hmc] at hfinal; simp at hfinal

/-- None-transfer for yaml: if the pattern does not match at a position of
the original content, it does not match at that position of the masked
content either. -/
theorem nt_yaml (key : List Char) {c : Char} {cs : List Char}
    (h : matchAt (Pat.yaml key) (c :: cs) = none) :
    matchAt (Pat.yaml key) (c :: mRender (scan (Pat.yaml key) cs)) = none := by
  rcases scan_firstMat (Pat.yaml key) cs with heq | ⟨a, g, h1, h2, h3⟩
  · rw [heq]; exact h
  · obtain ⟨ws, e1, hws, hg2q, e3⟩ := matchAt_yaml_some h3
    have hiso : yTest key (c :: cs) = false := by
      rw [← matchAt_yaml_isSome, h]; rfl
    have hcs : c :: cs = (c :: (a ++ key ++ ws)) ++ '"' :: (g.g2 ++ '"' :: g.rest) := by
      rw [h1, e1, e3]; simp
    have hmr : c :: mRender (scan (Pat.yaml key) cs)
        = (c :: (a ++ key ++ ws)) ++
          '"' :: (MASKs ++ '"' :: mRender (scan (Pat.yaml key) g.rest)) := by
      rw [h2, e1, e3]
      simp
    have hlen : key.length ≤ (c :: (a ++ key ++ ws)).length := by
      simp [List.length_cons, List.length_append]
      omega
    have hcongr := yTest_congr key (c :: (a ++ key ++ ws))
      (MASKs ++ '"' :: mRender (scan (Pat.yaml key) g.rest))
      (g.g2 ++ '"' :: g.rest)
      (hasQ_append_quote _ _) (hasQ_append_quote _ _) hlen
    rw [hcs] at hiso
    have hfinal : yTest key (c :: mRender (scan (Pat.yaml key) cs)) = false := by
      rw [hmr, hcongr, hiso]
    rw [← matchAt_yaml_isSome] at hfinal
    cases hmc : matchAt (Pat.yaml key) (c :: mRender (scan (Pat.yaml key) cs)) with
    | none => rfl
    | some g' => rw [hmc] at hfinal; simp at hfinal

/-- Single-pattern mask/unmask inversion: when no matched value zone already
equals the mask token, the unmask pass over the masked render, consuming the
captured values, restores the original content and consumes everything. -/
theorem mask_unmask_single (p : Pat) (hp : isOrigPat p = true) :
    ∀ l, noMaskVals p l = true →
      reSub (maskedForm p) unmask_replacer (mCaps (scan p l)) (mRender (scan p l))
        = ([], l) := by
  apply scan_induction p
    (fun l => noMaskVals p l = true →
      reSub (maskedForm p) unmask_replacer (mCaps (scan p l)) (mRender (scan p l))
        = ([], l))
  · intro _
    simp [scan_nil, mCaps, mRender, reSub_nil]
  · intro c cs g h ih hnm
    rw [noMaskVals, scan_match h] at hnm
    simp only [List.all_cons, Bool.and_eq_true, evNoMask, Bool.not_eq_true'] at hnm
    obtain ⟨hg2, hrest⟩ := hnm
    have hg2' : g.g2 ≠ MASKs := by
      intro hx; rw [hx] at hg2; simp at hg2
    have hrest' : noMaskVals p g.rest = true := hrest
    rw [scan_match h]
    simp only [mCaps, mRender]
    rw [if_neg hg2']
    cases p with
    | docker key =>
      obtain ⟨e1, e3, _, _, _⟩ := matchAt_docker_some h
      rw [e1, e3]
      have hmk := matchAt_dockerMasked_mk key (mRender (scan (Pat.docker key) g.rest))
      have hshape : key ++ MASKs ++ [] ++ mRender (scan (Pat.docker key) g.rest)
          = key ++ (MASKs ++ mRender (scan (Pat.docker key) g.rest)) := by simp
      rw [hshape, show maskedForm (Pat.docker key) = Pat.dockerMasked key from rfl]
      rw [reSub_match_any unmask_replacer
        (g.g2 :: mCaps (scan (Pat.docker key) g.rest)) hmk]
      simp only [unmask_replacer, if_true]
      simp only [maskedForm] at ih
      rw [ih hrest']
      have hdec := matchAt_decomp h
      rw [e1, e3] at hdec
      simp only
      rw [show key ++ g.g2 ++ [] ++ g.rest = c :: cs by rw [hdec]]
    | yaml key =>
      obtain ⟨ws, e1, hws, _, e3⟩ := matchAt_yaml_some h
      rw [e1, e3]
      have hmk := matchAt_yamlMasked_mk key ws
        (mRender (scan (Pat.yaml key) g.rest)) hws
      have hshape : key ++ ws ++ ['"'] ++ MASKs ++ ['"'] ++ mRender (scan (Pat.yaml key) g.rest)
          = key ++ (ws ++ '"' :: (MASKs ++ '"' :: mRender (scan (Pat.yaml key) g.rest))) := by
        simp
      rw [hshape, show maskedForm (Pat.yaml key) = Pat.yamlMasked key from rfl]
      rw [reSub_match_any unmask_replacer
        (g.g2 :: mCaps (scan (Pat.yaml key) g.rest)) hmk]
      simp only [unmask_replacer, if_true]
      simp only [maskedForm] at ih
      rw [ih hrest']
      have hdec := matchAt_decomp h
      rw [e1, e3] at hdec
      simp only
      rw [show key ++ ws ++ ['"'] ++ g.g2 ++ ['"'] ++ g.rest = c :: cs by rw [hdec]]
    | dockerMasked key => simp [isOrigPat] at hp
    | yamlMasked key => simp [isOrigPat] at hp
  · intro c cs h ih hnm
    rw [noMaskVals, scan_none h] at hnm
    simp only [List.all_cons, Bool.and_eq_true, evNoMask] at hnm
    have hrest' : noMaskVals p cs = true := hnm.2
    rw [scan_none h]
    simp only [mCaps, mRender]
    cases p with
    | docker key =>
      have h2 := nt_docker key h
      cases hmc : matchAt (Pat.dockerMasked key)
          (c :: mRender (scan (Pat.docker key) cs)) with
      | some g' =>
        exfalso
        have := dockerMasked_imp_docker (X := c :: mRender (scan (Pat.docker key) cs))
          (by rw [hmc]; rfl)
        rw [h2] at this
        simp at this
      | none =>
        rw [show maskedForm (Pat.docker key) = Pat.dockerMasked key from rfl]
        rw [reSub_none unmask_replacer (mCaps (scan (Pat.docker key) cs)) hmc]
        simp only [maskedForm] at ih
        rw [ih hrest']
    | yaml key =>
      have h2 := nt_yaml key h
      cases hmc : matchAt (Pat.yamlMasked key)
          (c :: mRender (scan (Pat.yaml key) cs)) with
      | some g' =>
        exfalso
        have := yamlMasked_imp_yaml (X := c :: mRender (scan (Pat.yaml key) cs))
          (by rw [hmc]; rfl)
        rw [h2] at this
        simp at this
      | none =>
        rw [show maskedForm (Pat.yaml key) = Pat.yamlMasked key from rfl]
        rw [reSub_none unmask_replacer (mCaps (scan (Pat.yaml key) cs)) hmc]
        simp only [maskedForm] at ih
        rw [ih hrest']
    | dockerMasked key => simp [isOrigPat] at hp
    | yamlMasked key => simp [isOrigPat] at hp

/-- Single-pattern round-trip at the file level. -/
theorem roundtrip_single (p : Pat) (hp : isOrigPat p = true) (l : List Char)
    (h : noMaskVals p l = true) :
    unmaskFile [p] (maskFile [p] l).1 (maskFile [p] l).2 = ([], l) := by
  have hm : maskFile [p] l = (mCaps (scan p l), mRender (scan p l)) := by
    rw [maskFile, List.foldl_cons, List.foldl_nil]
    rw [show reSub p mask_replacer (([] : List (List Char)), l).1 (([] : List (List Char)), l).2
        = ([] ++ mCaps (scan p l), mRender (scan p l)) from reSub_mask_eq p l []]
    simp
  rw [hm]
  rw [unmaskFile, List.foldl_cons, List.foldl_nil]
  exact mask_unmask_single p hp l h

theorem isMaskedPat_maskedForm (p : Pat) : isMaskedPat (maskedForm p) = true := by
  cases p <;> rfl

/-- Every match of a masked-form pattern has the mask token as its value
zone. -/
theorem scan_all_masked (q : Pat) (hq : isMaskedPat q = true) :
    ∀ l, (scan q l).all evMasked = true := by
  apply scan_induction q
  · simp [scan_nil]
  · intro c cs g h ih
    rw [scan_match h]
    simp only [List.all_cons, Bool.and_eq_true]
    refine ⟨?_, ih⟩
    cases q with
    | docker key => simp [isMaskedPat] at hq
    | yaml key => simp [isMaskedPat] at hq
    | dockerMasked key =>
      obtain ⟨_, e2, _⟩ := matchAt_dockerMasked_some h
      simp [evMasked, e2]
    | yamlMasked key =>
      obtain ⟨ws, _, _, e2, _⟩ := matchAt_yamlMasked_some h
      simp [evMasked, e2]
  · intro c cs h ih
    rw [scan_none h]
    simpa [evMasked] using ih

/-- Consuming stored values over an all-masked scan drops exactly one value
per match. -/
theorem uRemaining_drop :
    ∀ (evs : List Ev) (cur : List (List Char)), evs.all evMasked = true →
      uRemaining evs cur = cur.drop (matCount evs) := by
  intro evs
  induction evs with
  | nil => intro cur _; simp [uRemaining, matCount]
  | cons e es ih =>
    intro cur hall
    simp only [List.all_cons, Bool.and_eq_true] at hall
    cases e with
    | lit c => simpa [uRemaining, matCount] using ih cur hall.2
    | mat a b c =>
      have hb : b = MASKs := by simpa [evMasked] using hall.1
      cases cur with
      | nil =>
        rw [show uRemaining (Ev.mat a b c :: es) [] = uRemaining es [] from rfl]
        rw [ih [] hall.2]
        simp [matCount]
      | cons v vs =>
        simp only [uRemaining, if_pos hb, matCount]
        rw [ih vs hall.2]
        simp [List.drop_succ_cons]

theorem uRemaining_nil_state :
    ∀ evs : List Ev, uRemaining evs [] = [] := by
  intro evs
  induction evs with
  | nil => rfl
  | cons e es ih => cases e <;> simpa [uRemaining] using ih

theorem uRender_nil_state :
    ∀ evs : List Ev, uRender evs [] = evConcat evs := by
  intro evs
  induction evs with
  | nil => rfl
  | cons e es ih => cases e <;> simp [uRender, evConcat, ih]

/-- With an empty stored sequence the whole unmask pass is the identity. -/
theorem unmaskFile_nil_store (pats : List Pat) :
    ∀ l, unmaskFile pats [] l = ([], l) := by
  induction pats with
  | nil => intro l; simp [unmaskFile]
  | cons p ps ih =>
    intro l
    rw [unmaskFile_eq]
    simp only [unmaskFile_eq] at ih
    simp only [remFold, ucontFold, uRemaining_nil_state, uRender_nil_state,
      evConcat_scan]
    exact ih l

/-- The stored values surviving the whole unmask pass are a drop of the
stored sequence by the total number of masked-form matches encountered. -/
theorem remFold_drop (pats : List Pat) (hpats : ∀ p ∈ pats, isOrigPat p = true) :
    ∀ (stored : List (List Char)) (l : List Char),
      remFold pats stored l = stored.drop (dynCount pats stored l) := by
  induction pats with
  | nil => intro stored l; simp [remFold, dynCount]
  | cons p ps ih =>
    intro stored l
    have hps : ∀ q ∈ ps, isOrigPat q = true := fun q hq => hpats q (by simp [hq])
    have hall := scan_all_masked (maskedForm p) (isMaskedPat_maskedForm p) l
    rw [show remFold (p :: ps) stored l
        = remFold ps (uRemaining (scan (maskedForm p) l) stored)
            (uRender (scan (maskedForm p) l) stored) from rfl]
    rw [show dynCount (p :: ps) stored l
        = matCount (scan (maskedForm p) l) +
            dynCount ps (uRemaining (scan (maskedForm p) l) stored)
              (uRender (scan (maskedForm p) l) stored) from rfl]
    rw [ih hps]
    rw [uRemaining_drop _ _ hall]
    rw [List.drop_drop]

theorem lookupA_insertA_same (m : List (String × List (List Char)))
    (k : String) (v : List (List Char)) :
    lookupA (insertA m k v) k = some v := by
  induction m with
  | nil => simp [insertA, lookupA]
  | cons kv t ih =>
    obtain ⟨k', v'⟩ := kv
    by_cases hk : k' = k
    · simp [insertA, hk, lookupA]
    · simp [insertA, hk, lookupA, ih]

theorem lookupA_insertA_other (m : List (String × List (List Char)))
    (k' k : String) (v : List (List Char)) (hk : k' ≠ k) :
    lookupA (insertA m k' v) k = lookupA m k := by
  induction m with
  | nil => simp [insertA, lookupA, hk]
  | cons kv t ih =>
    obtain ⟨k'', v''⟩ := kv
    by_cases hk2 : k'' = k'
    · simp [insertA, hk2, lookupA, hk]
    · simp only [insertA, hk2, if_false, lookupA]
      by_cases hk3 : k'' = k
      · simp [hk3]
      · simp [hk3, ih]

/-- A pass whose scan never matches changes nothing and consumes nothing. -/
theorem unmask_all_lit (q : Pat) :
    ∀ l (cur : List (List Char)), (scan q l).all isLitEv = true →
      reSub q unmask_replacer cur l = (cur, l) := by
  apply scan_induction q
    (fun l => ∀ cur, (scan q l).all isLitEv = true →
      reSub q unmask_replacer cur l = (cur, l))
  · intro cur _
    simp [reSub_nil]
  · intro c cs g h _ cur hall
    rw [scan_match h] at hall
    simp [isLitEv] at hall
  · intro c cs h ih cur hall
    rw [scan_none h] at hall
    simp only [List.all_cons, Bool.and_eq_true] at hall
    rw [reSub_none unmask_replacer cur h, ih cur hall.2]

theorem mCaps_eq_matVals :
    ∀ evs : List Ev, evs.all evNoMask = true → mCaps evs = matVals evs := by
  intro evs
  induction evs with
  | nil => intro _; rfl
  | cons e es ih =>
    intro hall
    simp only [List.all_cons, Bool.and_eq_true] at hall
    cases e with
    | lit c => simpa [mCaps, matVals] using ih hall.2
    | mat a b c =>
      have hb : ¬ b = MASKs := by
        have := hall.1
        simp only [evNoMask, Bool.not_eq_true'] at this
        simpa using this
      simp [mCaps, matVals, hb, ih hall.2]

/-! ### Saturation machinery for idempotence -/

theorem SatB_cons (p : Pat) (c : Char) (cs : List Char) :
    SatB p (c :: cs) = (posOK p (c :: cs) && SatB p cs) := rfl

theorem SatB_suffix (p : Pat) :
    ∀ {l t : List Char}, SatB p l = true → t <:+ l → SatB p t = true := by
  intro l
  induction l with
  | nil =>
    intro t h ht
    rw [List.suffix_nil.mp ht]
    rfl
  | cons c cs ih =>
    intro t h ht
    rcases List.suffix_cons_iff.mp ht with rfl | ht
    · exact h
    · rw [SatB_cons, Bool.and_eq_true] at h
      exact ih h.2 ht

/-- A saturated text is a fixed point of the mask pass with no captures. -/
theorem sat_scan_inert (p : Pat) :
    ∀ z (fs : List (List Char)), SatB p z = true →
      reSub p mask_replacer fs z = (fs, z) := by
  apply scan_induction p
    (fun z => ∀ fs, SatB p z = true → reSub p mask_replacer fs z = (fs, z))
  · intro fs _
    exact reSub_nil p mask_replacer fs
  · intro c cs g h ih fs hsat
    have hparts := hsat
    rw [SatB_cons, Bool.and_eq_true, posOK, h] at hparts
    have hg2 : g.g2 = MASKs := by simpa using hparts.1
    have hrest : SatB p g.rest = true :=
      SatB_suffix p hsat ⟨g.g1 ++ g.g2 ++ g.g3, (matchAt_decomp h).symm⟩
    rw [reSub_match mask_replacer fs h]
    simp only [mask_replacer, if_pos hg2]
    rw [ih fs hrest]
    simp only
    rw [show g.g1 ++ g.g2 ++ g.g3 ++ g.rest = c :: cs from (matchAt_decomp h).symm]
  · intro c cs h ih fs hsat
    rw [SatB_cons, Bool.and_eq_true] at hsat
    rw [reSub_none mask_replacer fs h, ih fs hsat.2]

theorem posOK_of_none {p : Pat} {w : List Char} (h : matchAt p w = none) :
    posOK p w = true := by
  simp [posOK, h]

theorem posOK_of_some {p : Pat} {w : List Char} {g : MatchGroups}
    (h : matchAt p w = some g) : posOK p w = decide (g.g2 = MASKs) := by
  simp [posOK, h]

theorem suffix_append_split {x a b : List Char} (h : x <:+ a ++ b) :
    x <:+ b ∨ ∃ s, s <:+ a ∧ x = s ++ b := by
  induction a with
  | nil => left; simpa using h
  | cons c a' ih =>
    rw [List.cons_append, List.suffix_cons_iff] at h
    rcases h with h | h
    · right
      exact ⟨c :: a', List.suffix_refl _, by simpa using h⟩
    · rcases ih h with h | ⟨s, hs, rfl⟩
      · left; exact h
      · right; exact ⟨s, hs.trans (List.suffix_cons c a'), rfl⟩

theorem noStar_not_mem {key : List Char} (h : noStar key = true) : '*' ∉ key := by
  intro hm
  have := List.all_eq_true.mp h _ hm
  simp at this

theorem noInnerB_spec {kp kq : List Char} (h : noInnerB kp kq = true) :
    ∀ s, s <:+ kq → s ≠ kq → kp <+: s → kp = s := by
  intro s hs hne hp
  have := List.all_eq_true.mp h s ((List.mem_tails s kq).mpr hs)
  simp only [Bool.or_eq_true, decide_eq_true_eq, Bool.not_eq_true',
    decide_eq_false_iff_not] at this
  tauto

/-- After masking, docker content never starts with a value character unless
the original rest did. -/
theorem mRender_head_nonval {key : List Char} (hk : key ≠ [])
    (hv : key.all dockerVal = true) {R : List Char}
    (hR : R = [] ∨ ∃ d t, R = d :: t ∧ dockerVal d = false) :
    mRender (scan (Pat.docker key) R) = [] ∨
      ∃ d t, mRender (scan (Pat.docker key) R) = d :: t ∧ dockerVal d = false := by
  rcases hR with rfl | ⟨d, t, rfl, hd⟩
  · left; simp [scan_nil, mRender]
  · right
    have hnone : matchAt (Pat.docker key) (d :: t) = none := by
      cases key with
      | nil => exact absurd rfl hk
      | cons k ks =>
        have hkd : dockerVal k = true := by
          simp only [List.all_cons, Bool.and_eq_true] at hv
          exact hv.1
        have hne : ¬ d = k := by
          intro he
          rw [he, hkd] at hd
          simp at hd
        simp [matchAt, stripLit, hne]
    rw [scan_none hnone]
    exact ⟨d, mRender (scan (Pat.docker key) t), by simp [mRender], hd⟩

theorem takeWhile_masks_of_head {M' : List Char}
    (hM : M' = [] ∨ ∃ d t, M' = d :: t ∧ dockerVal d = false) :
    (MASKs ++ M').takeWhile dockerVal = MASKs ∧
      (MASKs ++ M').dropWhile dockerVal = M' := by
  have hall : MASKs.all dockerVal = true := by decide
  rcases hM with rfl | ⟨d, t, rfl, hd⟩
  · rw [List.append_nil]
    exact takeWhile_all hall
  · exact takeWhile_append_cons hd hall

/-- A docker pattern matches its own masked shape with the mask token as the
value zone. -/
theorem matchAt_docker_mk_masked (key M' : List Char)
    (hM : M' = [] ∨ ∃ d t, M' = d :: t ∧ dockerVal d = false) :
    matchAt (Pat.docker key) (key ++ (MASKs ++ M')) =
      some ⟨key, MASKs, [], M'⟩ := by
  have h := takeWhile_masks_of_head hM
  have hne : MASKs ≠ [] := by decide
  simp only [matchAt, stripLit_append, Option.some_bind, h.1, h.2]
  rw [if_neg hne]

/-- Splitting the masked zone against a later greedy value capture: the
capture is exactly the mask token and the rests agree. -/
theorem maskSplit {g2q restq R : List Char}
    (he : MASKs ++ R = g2q ++ restq) (_hne : g2q ≠ [])
    (hall : g2q.all dockerVal = true)
    (hrq : restq = [] ∨ ∃ d t, restq = d :: t ∧ dockerVal d = false)
    (hR : R = [] ∨ ∃ d t, R = d :: t ∧ dockerVal d = false) :
    g2q = MASKs ∧ restq = R := by
  rcases List.append_eq_append_iff.mp he with ⟨e, h1, h2⟩ | ⟨e, h1, h2⟩
  · -- g2q = MASKs ++ e, R = e ++ restq
    cases e with
    | nil => exact ⟨by simpa using h1, by simpa using h2.symm⟩
    | cons f e' =>
      exfalso
      rcases hR with rfl | ⟨d, t, hRe, hd⟩
      · simp at h2
      · have hdf : d = f := by
          rw [hRe] at h2
          injection h2
        have hfm : f ∈ g2q := by
          rw [h1]
          simp
        have := List.all_eq_true.mp hall _ hfm
        rw [← hdf] at this
        rw [hd] at this
        simp at this
  · -- MASKs = g2q ++ e, restq = e ++ R
    cases e with
    | nil =>
      refine ⟨?_, ?_⟩
      · simpa using h1.symm
      · simpa using h2
    | cons f e' =>
      exfalso
      have hfm : f ∈ MASKs := by
        rw [h1]
        simp
      have hf : f = '*' := by simpa [MASKs] using hfm
      rcases hrq with hrq | ⟨d, t, hrq, hd⟩
      · rw [hrq] at h2; simp at h2
      · rw [hrq] at h2
        have hdf : d = f := by injection h2
        rw [hdf, hf] at hd
        simp [dockerVal, isSpaceCh] at hd

/-- Full-segment position check for docker: at the start of a masked zone
whose key part is a same-family key, the pattern either fails or finds the
mask token. -/
theorem dcheck_full (kp kq M' : List Char) (hsp : noStar kp = true)
    (hpq : kp = kq ∨ ¬(kp <+: kq))
    (hM : M' = [] ∨ ∃ d t, M' = d :: t ∧ dockerVal d = false) :
    posOK (Pat.docker kp) (kq ++ MASKs ++ M') = true := by
  rcases hpq with rfl | hpq
  · have hmk := matchAt_docker_mk_masked kp M' hM
    simp only [posOK, List.append_assoc, hmk]
    simp
  · cases hs : stripLit kp (kq ++ (MASKs ++ M')) with
    | none =>
      have hn : matchAt (Pat.docker kp) (kq ++ (MASKs ++ M')) = none := by
        simp [matchAt, hs]
      rw [List.append_assoc]
      exact posOK_of_none hn
    | some r =>
      exfalso
      have heq : kq ++ (MASKs ++ M') = kp ++ r := stripLit_eq hs
      rcases List.append_eq_append_iff.mp heq with ⟨e, h1, h2⟩ | ⟨e, h1, h2⟩
      · -- kp = kq ++ e
        cases e with
        | nil =>
          apply hpq
          rw [h1, List.append_nil]
        | cons f e' =>
          have hf : f = '*' := by
            have : ('*' : Char) :: (['*', '*', '*', '*', '*'] ++ M') = f :: (e' ++ r) := by
              simpa [MASKs] using h2
            injection this with h _
            exact h.symm
          apply noStar_not_mem hsp
          rw [h1, hf]
          simp
      · -- kq = kp ++ e
        exact hpq ⟨e, h1.symm⟩

theorem dTest_long {kp u : List Char} (hsp : noStar kp = true)
    (hlen : u.length < kp.length) (w : List Char) :
    dTest kp (u ++ '*' :: w) = false := by
  cases hs : stripLit kp (u ++ '*' :: w) with
  | none => simp [dTest, hs]
  | some r =>
    exfalso
    have heq := stripLit_eq hs
    rcases List.append_eq_append_iff.mp heq with ⟨e, h1, h2⟩ | ⟨e, h1, h2⟩
    · -- kp = u ++ e
      cases e with
      | nil =>
        rw [h1] at hlen
        simp at hlen
      | cons f e' =>
        have hf : f = '*' := by
          have : ('*' : Char) :: w = f :: (e' ++ r) := by simpa using h2
          injection this with h _
          exact h.symm
        apply noStar_not_mem hsp
        rw [h1, hf]
        simp
    · -- u = kp ++ e
      rw [h1] at hlen
      simp at hlen

/-- Saturation of every position inside a rendered docker masked zone
followed by already-saturated content. -/
theorem dsat_seg (kp kq M' : List Char) (hkp : kp ≠ []) (hsp : noStar kp = true)
    (hpq : kp = kq ∨ ¬(kp <+: kq)) (hinner : noInnerB kp kq = true)
    (hM : M' = [] ∨ ∃ d t, M' = d :: t ∧ dockerVal d = false)
    (hsat : SatB (Pat.docker kp) M' = true) :
    ∀ x, x <:+ (kq ++ MASKs) → SatB (Pat.docker kp) (x ++ M') = true := by
  intro x
  induction x with
  | nil => intro _; simpa using hsat
  | cons c x' ih =>
    intro hx
    have hx2 : x' <:+ kq ++ MASKs := (List.suffix_cons c x').trans hx
    have htail := ih hx2
    rw [List.cons_append, SatB_cons]
    rw [show c :: (x' ++ M') = (c :: x') ++ M' from rfl]
    rw [htail, Bool.and_true]
    obtain ⟨k, ks, rfl⟩ : ∃ k ks, kp = k :: ks := by
      cases kp with
      | nil => exact absurd rfl hkp
      | cons k ks => exact ⟨k, ks, rfl⟩
    have hkstar : ¬ ('*' = k) := by
      intro hk
      exact noStar_not_mem hsp (by rw [hk]; simp)
    rcases suffix_append_split hx with hstars | ⟨s, hs, hxeq⟩
    · -- c :: x' is a run of stars
      have hc : c = '*' := by
        have hmem : c ∈ MASKs := hstars.subset (by simp)
        simpa [MASKs] using hmem
      subst hc
      apply posOK_of_none
      simp [matchAt, stripLit, hkstar]
    · by_cases hskq : s = kq
      · subst hskq
        rw [hxeq]
        exact dcheck_full (k :: ks) s M' hsp hpq hM
      · cases s with
        | nil =>
          have hc : c = '*' := by
            have hxm : c :: x' = MASKs := by simpa using hxeq
            have hmem : c ∈ MASKs := by rw [← hxm]; simp
            simpa [MASKs] using hmem
          subst hc
          apply posOK_of_none
          simp [matchAt, stripLit, hkstar]
        | cons c0 s' =>
          rw [hxeq]
          rw [show ((c0 :: s') ++ MASKs) ++ M' = (c0 :: s') ++ (MASKs ++ M') from by simp]
          cases hstrip : stripLit (k :: ks) ((c0 :: s') ++ (MASKs ++ M')) with
          | none =>
            apply posOK_of_none
            simp only [matchAt]
            rw [hstrip]
            rfl
          | some r =>
            have heq := stripLit_eq hstrip
            rcases List.append_eq_append_iff.mp heq.symm with ⟨e, h1, h2⟩ | ⟨e, h1, h2⟩
            · -- (c0 :: s') = (k :: ks) ++ e
              cases e with
              | nil =>
                have hks : (k :: ks) = c0 :: s' := by simpa using h1.symm
                rw [show (c0 :: s') ++ (MASKs ++ M') = (k :: ks) ++ (MASKs ++ M') from by
                  rw [hks]]
                rw [posOK_of_some (matchAt_docker_mk_masked (k :: ks) M' hM)]
                simp
              | cons f e' =>
                exfalso
                have hpre : (k :: ks) <+: (c0 :: s') := ⟨f :: e', h1.symm⟩
                have hinn := noInnerB_spec hinner (c0 :: s') hs hskq hpre
                rw [hinn] at h1
                have hlen := congrArg List.length h1
                simp at hlen
            · -- (k :: ks) = (c0 :: s') ++ e
              cases e with
              | nil =>
                have hks : (k :: ks) = c0 :: s' := by simpa using h1
                rw [show (c0 :: s') ++ (MASKs ++ M') = (k :: ks) ++ (MASKs ++ M') from by
                  rw [hks]]
                rw [posOK_of_some (matchAt_docker_mk_masked (k :: ks) M' hM)]
                simp
              | cons f e' =>
                exfalso
                have hf : f = '*' := by
                  have hm2 : ('*' : Char) :: (['*', '*', '*', '*', '*'] ++ M')
                      = f :: (e' ++ r) := by simpa [MASKs] using h2
                  injection hm2 with hh _
                  exact hh.symm
                apply noStar_not_mem hsp
                rw [h1, hf]
                simp

/-- None-transfer across another docker key's masking: if the pattern does
not match at a position of the original content, it does not match at that
position after the content has been masked with a second docker key. -/
theorem nt_docker_cross (kp kq : List Char) (hsp : noStar kp = true)
    {c : Char} {cs : List Char}
    (h : matchAt (Pat.docker kp) (c :: cs) = none) :
    matchAt (Pat.docker kp) (c :: mRender (scan (Pat.docker kq) cs)) = none := by
  rcases scan_firstMat (Pat.docker kq) cs with heq | ⟨a, g, h1, h2, h3⟩
  · rw [heq]; exact h
  · obtain ⟨e1, e3, hne, hall, _⟩ := matchAt_docker_some h3
    cases hg2 : g.g2 with
    | nil => exact absurd hg2 hne
    | cons d g2' =>
      have hd : dockerVal d = true := by
        rw [hg2] at hall
        simp only [List.all_cons, Bool.and_eq_true] at hall
        exact hall.1
      have hiso : dTest kp (c :: cs) = false := by
        rw [← matchAt_docker_isSome, h]; rfl
      have hcs : c :: cs = (c :: (a ++ kq)) ++ d :: (g2' ++ g.rest) := by
        rw [h1, e1, e3, hg2]; simp
      have hmr : c :: mRender (scan (Pat.docker kq) cs)
          = (c :: (a ++ kq)) ++
            '*' :: (['*', '*', '*', '*', '*'] ++
              mRender (scan (Pat.docker kq) g.rest)) := by
        rw [h2, e1, e3]
        simp [MASKs]
      have hfinal : dTest kp (c :: mRender (scan (Pat.docker kq) cs)) = false := by
        by_cases hlen : kp.length ≤ (c :: (a ++ kq)).length
        · have hcongr := dTest_congr kp (c :: (a ++ kq))
            (['*', '*', '*', '*', '*'] ++ mRender (scan (Pat.docker kq) g.rest))
            (g2' ++ g.rest) '*' d (by decide) hd hlen
          rw [hcs] at hiso
          rw [hmr, hcongr, hiso]
        · rw [hmr]
          exact dTest_long hsp (Nat.lt_of_not_le hlen) _
      rw [← matchAt_docker_isSome] at hfinal
      cases hmc : matchAt (Pat.docker kp)
          (c :: mRender (scan (Pat.docker kq) cs)) with
      | none => rfl
      | some g' => rw [hmc] at hfinal; simp at hfinal

/-- Mask-value preservation across a second docker key's masking: a position
whose docker match already has the mask token as its value still passes the
position check after the content has been masked with the other key. -/
theorem vpx_docker (kp kq : List Char) (hsp : noStar kp = true)
    (hsq : noStar kq = true) (hkq : kq ≠ []) (hallq : kq.all dockerVal = true)
    {c : Char} {cs : List Char} {g : MatchGroups}
    (h : matchAt (Pat.docker kp) (c :: cs) = some g) (hg2 : g.g2 = MASKs) :
    posOK (Pat.docker kp) (c :: mRender (scan (Pat.docker kq) cs)) = true := by
  rcases scan_firstMat (Pat.docker kq) cs with heq | ⟨a, gq, h1, h2, h3⟩
  · rw [heq, posOK_of_some h, hg2]
    simp
  · obtain ⟨e1, e3, hneq, hallvq, hrq⟩ := matchAt_docker_some h3
    obtain ⟨f1, f3, _, _, hR⟩ := matchAt_docker_some h
    have hdec : c :: cs = kp ++ (MASKs ++ g.rest) := by
      have hd := matchAt_decomp h
      rw [f1, hg2, f3] at hd
      simpa using hd
    have hdecq : c :: cs = ((c :: a) ++ kq) ++ (gq.g2 ++ gq.rest) := by
      rw [h1, e1, e3]
      simp
    have hmr : c :: mRender (scan (Pat.docker kq) cs)
        = ((c :: a) ++ kq) ++
          (MASKs ++ mRender (scan (Pat.docker kq) gq.rest)) := by
      rw [h2, e1, e3]
      simp
    have hMq := mRender_head_nonval hkq hallq hrq
    rcases List.append_eq_append_iff.mp (hdec.symm.trans hdecq) with
      ⟨e, he1, he2⟩ | ⟨e, he1, he2⟩
    · -- the second key's match begins at or after the end of this key
      cases e with
      | nil =>
        have hu : (c :: a) ++ kq = kp := by simpa using he1
        rw [hmr, hu, posOK_of_some (matchAt_docker_mk_masked kp _ hMq)]
        simp
      | cons f e₀ =>
        rcases List.append_eq_append_iff.mp he2 with ⟨m, hm1, hm2⟩ | ⟨m, hm1, hm2⟩
        · -- the lead into the stars covers the whole mask token
          cases m with
          | nil =>
            exfalso
            have hfe : f :: e₀ = MASKs := by simpa using hm1
            have hgr : g.rest = gq.g2 ++ gq.rest := by simpa [hfe] using hm2
            cases hvq : gq.g2 with
            | nil => exact absurd hvq hneq
            | cons d vq' =>
              have hd : dockerVal d = true := by
                rw [hvq] at hallvq
                simp only [List.all_cons, Bool.and_eq_true] at hallvq
                exact hallvq.1
              rw [hvq, List.cons_append] at hgr
              rcases hR with hnil | ⟨d₀, t₀, hRe, hd₀⟩
              · rw [hnil] at hgr; exact absurd hgr.symm (by simp)
              · rw [hRe] at hgr
                injection hgr with hdd _
                rw [hdd, hd] at hd₀
                exact absurd hd₀ (by simp)
          | cons fm m' =>
            have hgr : g.rest = (fm :: m') ++ (gq.g2 ++ gq.rest) := hm2
            rcases hR with hnil | ⟨d₀, t₀, hRe, hd₀⟩
            · rw [hnil] at hgr; exact absurd hgr.symm (by simp)
            · have hfm : dockerVal fm = false := by
                rw [hRe] at hgr
                injection hgr with hdd _
                rw [hdd] at hd₀
                exact hd₀
              rw [hmr]
              rw [show ((c :: a) ++ kq) ++
                    (MASKs ++ mRender (scan (Pat.docker kq) gq.rest))
                  = kp ++ (MASKs ++ (fm :: (m' ++
                      (MASKs ++ mRender (scan (Pat.docker kq) gq.rest)))))
                from by rw [he1, hm1]; simp]
              rw [posOK_of_some (matchAt_docker_mk_masked kp _
                (Or.inr ⟨fm, _, rfl, hfm⟩))]
              simp
        · -- the lead into the stars stays inside the mask token: the other
          -- key would have to end in a star
          exfalso
          have hsub : ∀ x ∈ f :: e₀, x = '*' := by
            intro x hx
            have hxm : x ∈ MASKs := by
              rw [hm1]
              exact List.mem_append_left _ hx
            simpa [MASKs] using hxm
          rcases List.eq_nil_or_concat (f :: e₀) with habs | ⟨L, b, hLb⟩
          · exact absurd habs (by simp)
          · rw [List.concat_eq_append] at hLb
            have hb : b = '*' := hsub b (by rw [hLb]; simp)
            obtain ⟨Lq, bq, hLqb⟩ : ∃ Lq bq, kq = Lq ++ [bq] := by
              rcases List.eq_nil_or_concat kq with hnil | ⟨Lq, bq, hLqb⟩
              · exact absurd hnil hkq
              · rw [List.concat_eq_append] at hLqb
                exact ⟨Lq, bq, hLqb⟩
            have heqk : ((c :: a) ++ Lq) ++ [bq] = (kp ++ L) ++ [b] := by
              have := he1
              rw [hLqb, hLb] at this
              simpa using this
            have hbb := (List.append_inj' heqk (by simp)).2
            injection hbb with hbb _
            apply noStar_not_mem hsq
            rw [hLqb, ← hb, ← hbb]
            simp
    · -- this key extends beyond the start of the second key's masked zone
      cases e with
      | nil =>
        have hu : kp = (c :: a) ++ kq := by simpa using he1
        rw [hmr, ← hu, posOK_of_some (matchAt_docker_mk_masked kp _ hMq)]
        simp
      | cons f e₀ =>
        have hlen : ((c :: a) ++ kq).length < kp.length := by
          rw [he1]
          simp
        rw [hmr]
        apply posOK_of_none
        have hfalse : dTest kp (((c :: a) ++ kq) ++
            (MASKs ++ mRender (scan (Pat.docker kq) gq.rest))) = false := by
          rw [show ((c :: a) ++ kq) ++
                (MASKs ++ mRender (scan (Pat.docker kq) gq.rest))
              = ((c :: a) ++ kq) ++ '*' :: (['*', '*', '*', '*', '*'] ++
                  mRender (scan (Pat.docker kq) gq.rest)) from by simp [MASKs]]
          exact dTest_long hsp hlen _
        rw [← matchAt_docker_isSome] at hfalse
        cases hmc : matchAt (Pat.docker kp) (((c :: a) ++ kq) ++
            (MASKs ++ mRender (scan (Pat.docker kq) gq.rest))) with
        | none => rfl
        | some g' => rw [hmc] at hfalse; simp at hfalse

/-- Own saturation: a docker mask pass leaves content saturated for its own
key. -/
theorem dsat_own (kp : List Char) (hkp : kp ≠ []) (hsp : noStar kp = true)
    (hallp : kp.all dockerVal = true) (hinner : noInnerB kp kp = true) :
    ∀ l, SatB (Pat.docker kp) (mRender (scan (Pat.docker kp) l)) = true := by
  apply scan_induction (Pat.docker kp)
    (fun l => SatB (Pat.docker kp) (mRender (scan (Pat.docker kp) l)) = true)
  · rfl
  · intro c cs g h ih
    obtain ⟨e1, e3, _, _, hrest⟩ := matchAt_docker_some h
    rw [scan_match h]
    simp only [mRender, e1, e3, List.append_nil]
    exact dsat_seg kp kp _ hkp hsp (Or.inl rfl) hinner
      (mRender_head_nonval hkp hallp hrest) ih (kp ++ MASKs)
      (List.suffix_refl _)
  · intro c cs h ih
    rw [scan_none h]
    simp only [mRender]
    rw [SatB_cons, ih, Bool.and_true]
    exact posOK_of_none (nt_docker kp h)

/-- Cross saturation: masking with a second docker key preserves saturation
for this key. -/
theorem dsat_cross (kp kq : List Char) (hkp : kp ≠ []) (hsp : noStar kp = true)
    (hsq : noStar kq = true) (hkq : kq ≠ []) (hallq : kq.all dockerVal = true)
    (hpq : kp = kq ∨ ¬(kp <+: kq)) (hinner : noInnerB kp kq = true) :
    ∀ l, SatB (Pat.docker kp) l = true →
      SatB (Pat.docker kp) (mRender (scan (Pat.docker kq) l)) = true := by
  apply scan_induction (Pat.docker kq)
    (fun l => SatB (Pat.docker kp) l = true →
      SatB (Pat.docker kp) (mRender (scan (Pat.docker kq) l)) = true)
  · intro _
    rfl
  · intro c cs gq h ih hsat
    obtain ⟨e1, e3, _, _, hrest⟩ := matchAt_docker_some h
    have hsatr : SatB (Pat.docker kp) gq.rest = true :=
      SatB_suffix _ hsat ⟨gq.g1 ++ gq.g2 ++ gq.g3, (matchAt_decomp h).symm⟩
    rw [scan_match h]
    simp only [mRender, e1, e3, List.append_nil]
    exact dsat_seg kp kq _ hkp hsp hpq hinner
      (mRender_head_nonval hkq hallq hrest) (ih hsatr) (kq ++ MASKs)
      (List.suffix_refl _)
  · intro c cs h ih hsat
    rw [SatB_cons, Bool.and_eq_true] at hsat
    rw [scan_none h]
    simp only [mRender]
    rw [SatB_cons, ih hsat.2, Bool.and_true]
    cases hmc : matchAt (Pat.docker kp) (c :: cs) with
    | none => exact posOK_of_none (nt_docker_cross kp kq hsp hmc)
    | some g =>
      have hg2m : g.g2 = MASKs := by
        have hp := hsat.1
        rw [posOK_of_some hmc] at hp
        simpa using hp
      exact vpx_docker kp kq hsp hsq hkq hallq hmc hg2m

/-- A text saturated for every pattern in the list is a fixed point of the
whole mask pass, with no captures. -/
theorem maskFile_fix_of_sat (pats : List Pat) (z : List Char)
    (hsat : ∀ p ∈ pats, SatB p z = true) :
    maskFile pats z = ([], z) := by
  induction pats with
  | nil => rfl
  | cons p ps ih =>
    rw [maskFile, List.foldl_cons,
      show reSub p mask_replacer ([], z).1 ([], z).2 = ([], z) from
        sat_scan_inert p z [] (hsat p (by simp))]
    exact ih fun q hq => hsat q (by simp [hq])

/-- After the docker-compose mask pass the content is saturated for both
configured docker patterns. -/
theorem composeSat (l : List Char) :
    ∀ p ∈ composePats, SatB p ((maskFile composePats l).2) = true := by
  intro p hp
  have hcont : (maskFile composePats l).2
      = mRender (scan (Pat.docker "MYSQL_ROOT_PASSWORD=".toList)
          (mRender (scan (Pat.docker "DATABASE_PASSWORD=".toList) l))) := by
    rw [maskFile_eq]
    rfl
  rw [hcont]
  simp only [composePats, List.mem_cons, List.not_mem_nil, or_false] at hp
  rcases hp with rfl | rfl
  · exact dsat_cross "DATABASE_PASSWORD=".toList "MYSQL_ROOT_PASSWORD=".toList
      (by decide) (by decide) (by decide) (by decide) (by decide)
      (Or.inr (by decide)) (by decide) _
      (dsat_own "DATABASE_PASSWORD=".toList (by decide) (by decide) (by decide)
        (by decide) l)
  · exact dsat_own "MYSQL_ROOT_PASSWORD=".toList (by decide) (by decide)
      (by decide) (by decide) _

/-- Masking docker-compose.yml a second time captures nothing and leaves the
content unchanged. -/
theorem composeFix (l : List Char) :
    maskFile composePats ((maskFile composePats l).2)
      = ([], (maskFile composePats l).2) :=
  maskFile_fix_of_sat _ _ (composeSat l)

theorem yChar_spec {c : Char} (h : yChar c = true) :
    isSpaceCh c = false ∧ noQ c = true ∧ ¬ c = '*' := by
  simp only [yChar, Bool.and_eq_true, Bool.not_eq_true',
    decide_eq_false_iff_not] at h
  exact ⟨h.1.1, h.1.2, h.2⟩

theorem yChar_noQ {kp : List Char} (h : kp.all yChar = true) :
    kp.all noQ = true := by
  rw [List.all_eq_true] at h ⊢
  intro x hx
  exact (yChar_spec (h x hx)).2.1

/-- A yaml pattern matches its own masked shape with the mask token as the
value zone. -/
theorem matchAt_yaml_mk_masked (key ws M' : List Char)
    (hws : ws.all isSpaceCh = true) :
    matchAt (Pat.yaml key) (key ++ (ws ++ '"' :: (MASKs ++ '"' :: M')))
      = some ⟨key ++ ws ++ ['"'], MASKs, ['"'], M'⟩ := by
  have hqs : isSpaceCh '"' = false := by decide
  have h1 := takeWhile_append_cons (q := isSpaceCh) (d := '"')
    (t := MASKs ++ '"' :: M') hqs hws
  have hqq : noQ '"' = false := by decide
  have hmq : MASKs.all noQ = true := by decide
  have h2 := takeWhile_append_cons (q := noQ) (d := '"') (t := M') hqq hmq
  have haq : ∀ Y : List Char, afterQuote ('"' :: Y) = some Y := fun Y => by
    simp [afterQuote]
  simp only [matchAt, stripLit_append, Option.some_bind, h1.1, h1.2, haq,
    h2.1, h2.2]

theorem matchAt_yaml_head_ne {k c : Char} {ks : List Char} (hc : ¬ c = k)
    (t : List Char) : matchAt (Pat.yaml (k :: ks)) (c :: t) = none := by
  simp [matchAt, stripLit, hc]

/-- Full-segment position check for yaml: at the start of a masked zone whose
key part is a same-family key, the pattern either fails or finds the mask
token. -/
theorem ycheck_full (kp kq ws M' : List Char) (_hyc : kp.all yChar = true)
    (hws : ws.all isSpaceCh = true)
    (hpq : kp = kq ∨ (¬(kp <+: kq) ∧ ¬(kq <+: kp))) :
    posOK (Pat.yaml kp) (kq ++ (ws ++ '"' :: (MASKs ++ '"' :: M'))) = true := by
  rcases hpq with rfl | ⟨hpq1, hpq2⟩
  · rw [posOK_of_some (matchAt_yaml_mk_masked kp ws M' hws)]
    simp
  · cases hs : stripLit kp (kq ++ (ws ++ '"' :: (MASKs ++ '"' :: M'))) with
    | none =>
      apply posOK_of_none
      simp only [matchAt]
      rw [hs]
      rfl
    | some r =>
      exfalso
      have heq := stripLit_eq hs
      rcases List.append_eq_append_iff.mp heq with ⟨e, h1, h2⟩ | ⟨e, h1, h2⟩
      · exact hpq2 ⟨e, h1.symm⟩
      · exact hpq1 ⟨e, h1.symm⟩

/-- Inside the rendered yaml zone after the key, every character is a space,
a quote or a star. -/
theorem yzone_head {ws : List Char} (hws : ws.all isSpaceCh = true)
    {c : Char} {x' : List Char}
    (hx : c :: x' <:+ ws ++ '"' :: (MASKs ++ ['"'])) :
    isSpaceCh c = true ∨ c = '"' ∨ c = '*' := by
  rcases suffix_append_split hx with hxQ | ⟨sw, hsw, hxeq⟩
  · rcases List.suffix_cons_iff.mp hxQ with hfull | hxM
    · right; left
      injection hfull with hh _
    · rcases suffix_append_split hxM with hxq2 | ⟨sm, hsm, hxeq2⟩
      · rcases List.suffix_cons_iff.mp hxq2 with hfull | hnil
        · right; left
          injection hfull with hh _
        · exact absurd (List.suffix_nil.mp hnil) (by simp)
      · cases sm with
        | nil =>
          right; left
          have hxs : c :: x' = ['"'] := by simpa using hxeq2
          injection hxs with hh _
        | cons m0 sm' =>
          right; right
          have hc : c = m0 := by
            rw [List.cons_append] at hxeq2
            injection hxeq2 with hh _
          have hm : m0 ∈ MASKs := hsm.subset (by simp)
          rw [hc]
          simpa [MASKs] using hm
  · cases sw with
    | nil =>
      right; left
      have hxs : c :: x' = '"' :: (MASKs ++ ['"']) := by simpa using hxeq
      injection hxs with hh _
    | cons w sw' =>
      left
      have hc : c = w := by
        rw [List.cons_append] at hxeq
        injection hxeq with hh _
      have hwmem : w ∈ ws := hsw.subset (by simp)
      rw [hc]
      exact List.all_eq_true.mp hws _ hwmem

/-- Saturation of every position inside a rendered yaml masked zone followed
by already-saturated content. -/
theorem ysat_seg (kp kq ws M' : List Char) (hkp : kp ≠ [])
    (hyc : kp.all yChar = true) (hws : ws.all isSpaceCh = true)
    (hpq : kp = kq ∨ (¬(kp <+: kq) ∧ ¬(kq <+: kp)))
    (hinner : noInnerB kp kq = true)
    (hsat : SatB (Pat.yaml kp) M' = true) :
    ∀ x, x <:+ kq ++ (ws ++ '"' :: (MASKs ++ ['"'])) →
      SatB (Pat.yaml kp) (x ++ M') = true := by
  obtain ⟨k, ks, rfl⟩ : ∃ k ks, kp = k :: ks := by
    cases kp with
    | nil => exact absurd rfl hkp
    | cons k ks => exact ⟨k, ks, rfl⟩
  have hkY := yChar_spec (List.all_eq_true.mp hyc k (by simp))
  have hknq : ¬ k = '"' := by
    intro hk2
    rw [hk2] at hkY
    exact absurd hkY.2.1 (by decide)
  intro x
  induction x with
  | nil => intro _; simpa using hsat
  | cons c x' ih =>
    intro hx
    have hx2 : x' <:+ kq ++ (ws ++ '"' :: (MASKs ++ ['"'])) :=
      (List.suffix_cons c x').trans hx
    have htail := ih hx2
    rw [List.cons_append, SatB_cons]
    rw [show c :: (x' ++ M') = (c :: x') ++ M' from rfl]
    rw [htail, Bool.and_true]
    have hhead : ¬ c = k →
        posOK (Pat.yaml (k :: ks)) ((c :: x') ++ M') = true := by
      intro h3
      apply posOK_of_none
      rw [List.cons_append]
      exact matchAt_yaml_head_ne h3 _
    have hzone : c :: x' <:+ ws ++ '"' :: (MASKs ++ ['"']) →
        posOK (Pat.yaml (k :: ks)) ((c :: x') ++ M') = true := by
      intro hz
      apply hhead
      rcases yzone_head hws hz with hsp2 | hq2 | hst2
      · intro hck
        rw [hck, hkY.1] at hsp2
        exact absurd hsp2 (by simp)
      · intro hck
        rw [hck] at hq2
        exact hknq hq2
      · intro hck
        rw [hck] at hst2
        exact hkY.2.2 hst2
    rcases suffix_append_split hx with hxT | ⟨s, hs, hxeq⟩
    · exact hzone hxT
    · by_cases hskq : s = kq
      · subst hskq
        rw [hxeq]
        rw [show (s ++ (ws ++ '"' :: (MASKs ++ ['"']))) ++ M'
            = s ++ (ws ++ '"' :: (MASKs ++ '"' :: M')) from by simp]
        exact ycheck_full (k :: ks) s ws M' hyc hws hpq
      · cases s with
        | nil =>
          apply hzone
          rw [show c :: x' = ws ++ '"' :: (MASKs ++ ['"']) from by
            simpa using hxeq]
        | cons c0 s' =>
          rw [hxeq]
          rw [show ((c0 :: s') ++ (ws ++ '"' :: (MASKs ++ ['"']))) ++ M'
              = (c0 :: s') ++ (ws ++ '"' :: (MASKs ++ '"' :: M')) from by simp]
          cases hstrip : stripLit (k :: ks)
              ((c0 :: s') ++ (ws ++ '"' :: (MASKs ++ '"' :: M'))) with
          | none =>
            apply posOK_of_none
            simp only [matchAt]
            rw [hstrip]
            rfl
          | some r =>
            have heq := stripLit_eq hstrip
            rcases List.append_eq_append_iff.mp heq.symm with
              ⟨e, h1, h2⟩ | ⟨e, h1, h2⟩
            · -- this key is a prefix of the inner-suffix position
              cases e with
              | nil =>
                have hks2 : (k :: ks) = c0 :: s' := by simpa using h1.symm
                rw [show (c0 :: s') ++ (ws ++ '"' :: (MASKs ++ '"' :: M'))
                    = (k :: ks) ++ (ws ++ '"' :: (MASKs ++ '"' :: M')) from by
                  rw [hks2]]
                rw [posOK_of_some (matchAt_yaml_mk_masked (k :: ks) ws M' hws)]
                simp
              | cons f e' =>
                exfalso
                have hpre : (k :: ks) <+: (c0 :: s') := ⟨f :: e', h1.symm⟩
                have hinn := noInnerB_spec hinner (c0 :: s') hs hskq hpre
                rw [hinn] at h1
                have hlen := congrArg List.length h1
                simp at hlen
            · -- this key extends past the other key remnant into the zone
              cases e with
              | nil =>
                have hks2 : (k :: ks) = c0 :: s' := by simpa using h1
                rw [show (c0 :: s') ++ (ws ++ '"' :: (MASKs ++ '"' :: M'))
                    = (k :: ks) ++ (ws ++ '"' :: (MASKs ++ '"' :: M')) from by
                  rw [hks2]]
                rw [posOK_of_some (matchAt_yaml_mk_masked (k :: ks) ws M' hws)]
                simp
              | cons f e' =>
                exfalso
                have hfk : f ∈ k :: ks := by rw [h1]; simp
                have hfY := yChar_spec (List.all_eq_true.mp hyc f hfk)
                cases hws2 : ws with
                | nil =>
                  rw [hws2, List.nil_append, List.cons_append] at h2
                  have hf : '"' = f := by
                    injection h2 with hh _
                  rw [← hf] at hfY
                  exact absurd hfY.2.1 (by decide)
                | cons w ws' =>
                  rw [hws2, List.cons_append, List.cons_append] at h2
                  have hf : w = f := by
                    injection h2 with hh _
                  have hwsp2 : isSpaceCh w = true := by
                    rw [hws2] at hws
                    simp only [List.all_cons, Bool.and_eq_true] at hws
                    exact hws.1
                  rw [hf, hfY.1] at hwsp2
                  exact absurd hwsp2 (by simp)

/-- A yaml key never matches where the text after a short lead is a star. -/
theorem yaml_none_star {kp u : List Char} (hyc : kp.all yChar = true)
    (hlen : u.length < kp.length) (X : List Char) :
    matchAt (Pat.yaml kp) (u ++ '*' :: X) = none := by
  cases hs : stripLit kp (u ++ '*' :: X) with
  | none =>
    simp only [matchAt]
    rw [hs]
    rfl
  | some r =>
    exfalso
    have heq := stripLit_eq hs
    rcases List.append_eq_append_iff.mp heq with ⟨e, h1, h2⟩ | ⟨e, h1, h2⟩
    · cases e with
      | nil =>
        rw [h1] at hlen
        simp at hlen
      | cons f e' =>
        have hf : '*' = f := by
          have h2' : ('*' : Char) :: X = f :: (e' ++ r) := by simpa using h2
          injection h2' with hh _
        have hfm : f ∈ kp := by rw [h1]; simp
        exact absurd hf.symm (yChar_spec (List.all_eq_true.mp hyc f hfm)).2.2
    · rw [h1] at hlen
      simp at hlen

/-- The yaml match decision fails when the key is longer than the lead up to
the opening quote. -/
theorem yTest_long {kp u : List Char} (hnq : kp.all noQ = true)
    (hlen : u.length < kp.length) (w : List Char) :
    yTest kp (u ++ '"' :: w) = false := by
  cases hs : stripLit kp (u ++ '"' :: w) with
  | none => simp [yTest, hs]
  | some r =>
    exfalso
    have heq := stripLit_eq hs
    rcases List.append_eq_append_iff.mp heq with ⟨e, h1, h2⟩ | ⟨e, h1, h2⟩
    · cases e with
      | nil =>
        rw [h1] at hlen
        simp at hlen
      | cons f e' =>
        have hf : '"' = f := by
          have h2' : ('"' : Char) :: w = f :: (e' ++ r) := by simpa using h2
          injection h2' with hh _
        have hfm : f ∈ kp := by rw [h1]; simp
        have hnf := List.all_eq_true.mp hnq f hfm
        rw [← hf] at hnf
        exact absurd hnf (by decide)
    · rw [h1] at hlen
      simp at hlen

/-- None-transfer across another yaml key's masking: if the pattern does not
match at a position of the original content, it does not match at that
position after the content has been masked with a second yaml key. -/
theorem nt_yaml_cross (kp kq : List Char) (hyc : kp.all yChar = true)
    {c : Char} {cs : List Char}
    (h : matchAt (Pat.yaml kp) (c :: cs) = none) :
    matchAt (Pat.yaml kp) (c :: mRender (scan (Pat.yaml kq) cs)) = none := by
  rcases scan_firstMat (Pat.yaml kq) cs with heq | ⟨a, g, h1, h2, h3⟩
  · rw [heq]; exact h
  · obtain ⟨ws, e1, hws, hg2q, e3⟩ := matchAt_yaml_some h3
    have hiso : yTest kp (c :: cs) = false := by
      rw [← matchAt_yaml_isSome, h]; rfl
    have hcs : c :: cs
        = (c :: (a ++ kq ++ ws)) ++ '"' :: (g.g2 ++ '"' :: g.rest) := by
      rw [h1, e1, e3]; simp
    have hmr : c :: mRender (scan (Pat.yaml kq) cs)
        = (c :: (a ++ kq ++ ws)) ++
          '"' :: (MASKs ++ '"' :: mRender (scan (Pat.yaml kq) g.rest)) := by
      rw [h2, e1, e3]
      simp
    have hfinal : yTest kp (c :: mRender (scan (Pat.yaml kq) cs)) = false := by
      by_cases hlen : kp.length ≤ (c :: (a ++ kq ++ ws)).length
      · have hcongr := yTest_congr kp (c :: (a ++ kq ++ ws))
          (MASKs ++ '"' :: mRender (scan (Pat.yaml kq) g.rest))
          (g.g2 ++ '"' :: g.rest)
          (hasQ_append_quote _ _) (hasQ_append_quote _ _) hlen
        rw [hcs] at hiso
        rw [hmr, hcongr, hiso]
      · rw [hmr]
        exact yTest_long (yChar_noQ hyc) (Nat.lt_of_not_le hlen) _
    rw [← matchAt_yaml_isSome] at hfinal
    cases hmc : matchAt (Pat.yaml kp)
        (c :: mRender (scan (Pat.yaml kq) cs)) with
    | none => rfl
    | some g' => rw [hmc] at hfinal; simp at hfinal

/-- Mask-value preservation across a second yaml key's masking: a position
whose yaml match already has the mask token as its value still passes the
position check after the content has been masked with the other key. -/
theorem vpx_yaml (kp kq : List Char) (hyc : kp.all yChar = true)
    {c : Char} {cs : List Char} {g : MatchGroups}
    (h : matchAt (Pat.yaml kp) (c :: cs) = some g) (hg2 : g.g2 = MASKs) :
    posOK (Pat.yaml kp) (c :: mRender (scan (Pat.yaml kq) cs)) = true := by
  rcases scan_firstMat (Pat.yaml kq) cs with heq | ⟨a, gq, h1, h2, h3⟩
  · rw [heq, posOK_of_some h, hg2]
    simp
  · obtain ⟨wsp, f1, hwsp, _, f3⟩ := matchAt_yaml_some h
    obtain ⟨wsq, e1, hwsq, hallVq, e3⟩ := matchAt_yaml_some h3
    have hdec : c :: cs
        = ((kp ++ wsp) ++ ['"']) ++ (MASKs ++ '"' :: g.rest) := by
      have hd := matchAt_decomp h
      rw [f1, hg2, f3] at hd
      rw [hd]
      simp
    have hdecq : c :: cs
        = ((c :: (a ++ kq ++ wsq)) ++ ['"']) ++ (gq.g2 ++ '"' :: gq.rest) := by
      rw [h1, e1, e3]
      simp
    have hmr : c :: mRender (scan (Pat.yaml kq) cs)
        = ((c :: (a ++ kq ++ wsq)) ++ ['"']) ++
          (MASKs ++ '"' :: mRender (scan (Pat.yaml kq) gq.rest)) := by
      rw [h2, e1, e3]
      simp
    rcases List.append_eq_append_iff.mp (hdec.symm.trans hdecq) with
      ⟨e, he1, he2⟩ | ⟨e, he1, he2⟩
    · -- the other key's match starts at or after the end of this zone's lead
      cases e with
      | nil =>
        have hu : (c :: (a ++ kq ++ wsq)) ++ ['"'] = (kp ++ wsp) ++ ['"'] := by
          rw [he1]
          simp
        rw [hmr, hu]
        rw [show ((kp ++ wsp) ++ ['"']) ++
              (MASKs ++ '"' :: mRender (scan (Pat.yaml kq) gq.rest))
            = kp ++ (wsp ++ '"' :: (MASKs ++ '"' ::
                mRender (scan (Pat.yaml kq) gq.rest))) from by simp]
        rw [posOK_of_some (matchAt_yaml_mk_masked kp wsp _ hwsp)]
        simp
      | cons f e₀ =>
        rcases List.append_eq_append_iff.mp he2 with ⟨m, hm1, hm2⟩ | ⟨m, hm1, hm2⟩
        · -- the other lead reaches past the whole mask token
          cases m with
          | nil =>
            exfalso
            have hfe : f :: e₀ = MASKs := by simpa using hm1
            have hu2 : (c :: (a ++ kq ++ wsq)) ++ ['"']
                = (((kp ++ wsp) ++ ['"']) ++ ['*', '*', '*', '*', '*']) ++ ['*'] := by
              rw [he1, hfe]
              simp [MASKs]
            have hqb := (List.append_inj' hu2 (by simp)).2
            injection hqb with hqb _
            exact absurd hqb (by decide)
          | cons fm m' =>
            have hfm : fm = '"' := by
              rw [List.cons_append] at hm2
              injection hm2 with hh _
              exact hh.symm
            rw [hmr]
            rw [show ((c :: (a ++ kq ++ wsq)) ++ ['"']) ++
                  (MASKs ++ '"' :: mRender (scan (Pat.yaml kq) gq.rest))
                = kp ++ (wsp ++ '"' :: (MASKs ++ '"' ::
                    (m' ++ (MASKs ++ '"' ::
                      mRender (scan (Pat.yaml kq) gq.rest))))) from by
              rw [he1, hm1, hfm]
              simp]
            rw [posOK_of_some (matchAt_yaml_mk_masked kp wsp _ hwsp)]
            simp
        · -- the other lead would end inside the stars
          exfalso
          have hsub : ∀ x ∈ f :: e₀, x = '*' := by
            intro x hx
            have hxm : x ∈ MASKs := by
              rw [hm1]
              exact List.mem_append_left _ hx
            simpa [MASKs] using hxm
          rcases List.eq_nil_or_concat (f :: e₀) with habs | ⟨L, b, hLb⟩
          · exact absurd habs (by simp)
          · rw [List.concat_eq_append] at hLb
            have hb : b = '*' := hsub b (by rw [hLb]; simp)
            have hu2 : (c :: (a ++ kq ++ wsq)) ++ ['"']
                = (((kp ++ wsp) ++ ['"']) ++ L) ++ [b] := by
              rw [he1, hLb]
              simp
            have hqb := (List.append_inj' hu2 (by simp)).2
            injection hqb with hqb _
            rw [hb] at hqb
            exact absurd hqb (by decide)
    · -- this zone's lead extends past the other key's opening quote
      cases e with
      | nil =>
        have hu : (c :: (a ++ kq ++ wsq)) ++ ['"'] = (kp ++ wsp) ++ ['"'] := by
          rw [he1]
          simp
        rw [hmr, hu]
        rw [show ((kp ++ wsp) ++ ['"']) ++
              (MASKs ++ '"' :: mRender (scan (Pat.yaml kq) gq.rest))
            = kp ++ (wsp ++ '"' :: (MASKs ++ '"' ::
                mRender (scan (Pat.yaml kq) gq.rest))) from by simp]
        rw [posOK_of_some (matchAt_yaml_mk_masked kp wsp _ hwsp)]
        simp
      | cons f e₀ =>
        by_cases hlen : kp.length ≤ ((c :: (a ++ kq ++ wsq)) ++ ['"']).length
        · obtain ⟨u', hu1, hu2⟩ : ∃ u',
              (c :: (a ++ kq ++ wsq)) ++ ['"'] = kp ++ u' ∧
              wsp ++ ['"'] = u' ++ (f :: e₀) := by
            have he1' : kp ++ (wsp ++ ['"'])
                = ((c :: (a ++ kq ++ wsq)) ++ ['"']) ++ (f :: e₀) := by
              rw [← he1]
              simp
            rcases List.append_eq_append_iff.mp he1' with
              ⟨v, hv1, hv2⟩ | ⟨v, hv1, hv2⟩
            · exact ⟨v, hv1, hv2⟩
            · cases v with
              | nil =>
                have hkpu : kp = (c :: (a ++ kq ++ wsq)) ++ ['"'] := by
                  simpa using hv1
                refine ⟨[], by rw [hkpu]; simp, ?_⟩
                have hv2' : f :: e₀ = wsp ++ ['"'] := by simpa using hv2
                rw [← hv2']
                simp
              | cons v0 v' =>
                exfalso
                have hlt : ((c :: (a ++ kq ++ wsq)) ++ ['"']).length
                    < kp.length := by
                  rw [hv1]
                  simp
                omega
          have hu'sp : u'.all isSpaceCh = true := by
            rcases List.append_eq_append_iff.mp hu2 with
              ⟨v, hv1, hv2⟩ | ⟨v, hv1, hv2⟩
            · cases v with
              | nil =>
                rw [hv1]
                simpa using hwsp
              | cons v0 v' =>
                exfalso
                have := congrArg List.length hv2
                simp at this
            · rw [List.all_eq_true]
              intro x hx
              have hxw : x ∈ wsp := by
                rw [hv1]
                exact List.mem_append_left _ hx
              exact List.all_eq_true.mp hwsp x hxw
          rw [hmr]
          apply posOK_of_none
          rw [show ((c :: (a ++ kq ++ wsq)) ++ ['"']) ++
                (MASKs ++ '"' :: mRender (scan (Pat.yaml kq) gq.rest))
              = kp ++ (u' ++ '*' :: (['*', '*', '*', '*', '*'] ++
                  '"' :: mRender (scan (Pat.yaml kq) gq.rest))) from by
            rw [hu1]
            simp [MASKs]]
          have hdw := takeWhile_append_cons (q := isSpaceCh) (d := '*')
            (t := ['*', '*', '*', '*', '*'] ++
              '"' :: mRender (scan (Pat.yaml kq) gq.rest)) (by decide) hu'sp
          have hnsq : ¬ ('*' : Char) = '"' := by decide
          simp only [matchAt, stripLit_append, Option.some_bind, hdw.2,
            afterQuote, if_neg hnsq, Option.none_bind]
        · rw [hmr]
          apply posOK_of_none
          rw [show ((c :: (a ++ kq ++ wsq)) ++ ['"']) ++
                (MASKs ++ '"' :: mRender (scan (Pat.yaml kq) gq.rest))
              = ((c :: (a ++ kq ++ wsq)) ++ ['"']) ++ '*' ::
                  (['*', '*', '*', '*', '*'] ++
                    '"' :: mRender (scan (Pat.yaml kq) gq.rest)) from by
            simp [MASKs]]
          exact yaml_none_star hyc (Nat.lt_of_not_le hlen) _

/-- Own saturation: a yaml mask pass leaves content saturated for its own
key. -/
theorem ysat_own (kp : List Char) (hkp : kp ≠ []) (hyc : kp.all yChar = true)
    (hinner : noInnerB kp kp = true) :
    ∀ l, SatB (Pat.yaml kp) (mRender (scan (Pat.yaml kp) l)) = true := by
  apply scan_induction (Pat.yaml kp)
    (fun l => SatB (Pat.yaml kp) (mRender (scan (Pat.yaml kp) l)) = true)
  · rfl
  · intro c cs g h ih
    obtain ⟨ws, e1, hws, _, e3⟩ := matchAt_yaml_some h
    rw [scan_match h]
    simp only [mRender, e1, e3]
    rw [show ((kp ++ ws ++ ['"']) ++ MASKs ++ ['"']) ++
          mRender (scan (Pat.yaml kp) g.rest)
        = (kp ++ (ws ++ '"' :: (MASKs ++ ['"']))) ++
          mRender (scan (Pat.yaml kp) g.rest) from by simp]
    exact ysat_seg kp kp ws _ hkp hyc hws (Or.inl rfl) hinner ih
      (kp ++ (ws ++ '"' :: (MASKs ++ ['"']))) (List.suffix_refl _)
  · intro c cs h ih
    rw [scan_none h]
    simp only [mRender]
    rw [SatB_cons, ih, Bool.and_true]
    exact posOK_of_none (nt_yaml kp h)

/-- Cross saturation: masking with a second yaml key preserves saturation for
this key. -/
theorem ysat_cross (kp kq : List Char) (hkp : kp ≠ [])
    (hyc : kp.all yChar = true)
    (hpq : kp = kq ∨ (¬(kp <+: kq) ∧ ¬(kq <+: kp)))
    (hinner : noInnerB kp kq = true) :
    ∀ l, SatB (Pat.yaml kp) l = true →
      SatB (Pat.yaml kp) (mRender (scan (Pat.yaml kq) l)) = true := by
  apply scan_induction (Pat.yaml kq)
    (fun l => SatB (Pat.yaml kp) l = true →
      SatB (Pat.yaml kp) (mRender (scan (Pat.yaml kq) l)) = true)
  · intro _
    rfl
  · intro c cs gq h ih hsat
    obtain ⟨ws, e1, hws, _, e3⟩ := matchAt_yaml_some h
    have hsatr : SatB (Pat.yaml kp) gq.rest = true :=
      SatB_suffix _ hsat ⟨gq.g1 ++ gq.g2 ++ gq.g3, (matchAt_decomp h).symm⟩
    rw [scan_match h]
    simp only [mRender, e1, e3]
    rw [show ((kq ++ ws ++ ['"']) ++ MASKs ++ ['"']) ++
          mRender (scan (Pat.yaml kq) gq.rest)
        = (kq ++ (ws ++ '"' :: (MASKs ++ ['"']))) ++
          mRender (scan (Pat.yaml kq) gq.rest) from by simp]
    exact ysat_seg kp kq ws _ hkp hyc hws hpq hinner (ih hsatr)
      (kq ++ (ws ++ '"' :: (MASKs ++ ['"']))) (List.suffix_refl _)
  · intro c cs h ih hsat
    rw [SatB_cons, Bool.and_eq_true] at hsat
    rw [scan_none h]
    simp only [mRender]
    rw [SatB_cons, ih hsat.2, Bool.and_true]
    cases hmc : matchAt (Pat.yaml kp) (c :: cs) with
    | none => exact posOK_of_none (nt_yaml_cross kp kq hyc hmc)
    | some g =>
      have hg2m : g.g2 = MASKs := by
        have hp := hsat.1
        rw [posOK_of_some hmc] at hp
        simpa using hp
      exact vpx_yaml kp kq hyc hmc hg2m

/-- After the config.yaml mask pass the content is saturated for all four
configured yaml patterns. -/
theorem yamlSat (l : List Char) :
    ∀ p ∈ yamlPats, SatB p ((maskFile yamlPats l).2) = true := by
  intro p hp
  have hcont : (maskFile yamlPats l).2
      = mRender (scan (Pat.yaml "api_key:".toList)
          (mRender (scan (Pat.yaml "oss_secret_key:".toList)
            (mRender (scan (Pat.yaml "oss_access_key:".toList)
              (mRender (scan (Pat.yaml "password:".toList) l))))))) := by
    rw [maskFile_eq]
    rfl
  rw [hcont]
  simp only [yamlPats, List.mem_cons, List.not_mem_nil, or_false] at hp
  rcases hp with rfl | rfl | rfl | rfl
  · exact ysat_cross "password:".toList "api_key:".toList (by decide)
      (by decide) (Or.inr (by decide)) (by decide) _
      (ysat_cross "password:".toList "oss_secret_key:".toList (by decide)
        (by decide) (Or.inr (by decide)) (by decide) _
        (ysat_cross "password:".toList "oss_access_key:".toList (by decide)
          (by decide) (Or.inr (by decide)) (by decide) _
          (ysat_own "password:".toList (by decide) (by decide) (by decide) l)))
  · exact ysat_cross "oss_access_key:".toList "api_key:".toList (by decide)
      (by decide) (Or.inr (by decide)) (by decide) _
      (ysat_cross "oss_access_key:".toList "oss_secret_key:".toList (by decide)
        (by decide) (Or.inr (by decide)) (by decide) _
        (ysat_own "oss_access_key:".toList (by decide) (by decide) (by decide)
          _))
  · exact ysat_cross "oss_secret_key:".toList "api_key:".toList (by decide)
      (by decide) (Or.inr (by decide)) (by decide) _
      (ysat_own "oss_secret_key:".toList (by decide) (by decide) (by decide) _)
  · exact ysat_own "api_key:".toList (by decide) (by decide) (by decide) _

/-- Masking configs/config.yaml a second time captures nothing and leaves the
content unchanged. -/
theorem yamlFix (l : List Char) :
    maskFile yamlPats ((maskFile yamlPats l).2)
      = ([], (maskFile yamlPats l).2) :=
  maskFile_fix_of_sat _ _ (yamlSat l)

theorem memConfig_isOrig {p : Pat} (hp : p ∈ composePats ∨ p ∈ yamlPats) :
    isOrigPat p = true := by
  rcases hp with hp | hp
  · simp only [composePats, List.mem_cons, List.not_mem_nil, or_false] at hp
    rcases hp with rfl | rfl <;> rfl
  · simp only [yamlPats, List.mem_cons, List.not_mem_nil, or_false] at hp
    rcases hp with rfl | rfl | rfl | rfl <;> rfl

/-! ### Claims -/

/-- C1 (counterexample): the round-trip claim fails as stated.  The file
docker-compose.yml with content MYSQL_ROOT_PASSWORD=DATABASE_PASSWORD=a
matches the configured patterns, every captured value differs from the mask
token, yet mask followed immediately by unmask (with the store produced by
that mask run) yields MYSQL_ROOT_PASSWORD=a, not the original content:
masking the nested DATABASE_PASSWORD value first lets the second pattern
capture a value that itself contains a masked form, which misaligns
restoration. -/
theorem claim_C1_roundtrip_counterexample :
    (maskFile composePats ceContent).1 ≠ [] ∧
    (maskFile composePats ceContent).1.all (fun v => !(v = MASKs)) = true ∧
    (unmaskSys (maskSys ⟨some ceContent, none, StoreDisk.absent, []⟩)).compose
      = some "MYSQL_ROOT_PASSWORD=a".toList ∧
    ¬ (unmaskSys (maskSys ⟨some ceContent, none, StoreDisk.absent, []⟩)).compose
      = some ceContent := by decide

/-- C1 (amended): for every configured pattern taken alone, if no value zone
matched during the mask scan already equals the mask token, then mask
followed immediately by unmask with that single pattern restores the file
content byte for byte and consumes the whole stored sequence.  With several
patterns in one file the property can fail when a captured value itself
contains another pattern's masked form, as the counterexample shows. -/
theorem claim_C1_roundtrip_amended (p : Pat)
    (hp : p ∈ composePats ∨ p ∈ yamlPats) (l : List Char)
    (h : noMaskVals p l = true) :
    unmaskFile [p] (maskFile [p] l).1 (maskFile [p] l).2 = ([], l) :=
  roundtrip_single p (memConfig_isOrig hp) l h

theorem claim_C1_roundtrip_amended_witness :
    unmaskFile [Pat.docker "DATABASE_PASSWORD=".toList]
        (maskFile [Pat.docker "DATABASE_PASSWORD=".toList]
          "DATABASE_PASSWORD=hunter2".toList).1
        (maskFile [Pat.docker "DATABASE_PASSWORD=".toList]
          "DATABASE_PASSWORD=hunter2".toList).2
      = ([], "DATABASE_PASSWORD=hunter2".toList) :=
  claim_C1_roundtrip_amended (Pat.docker "DATABASE_PASSWORD=".toList)
    (Or.inl (by decide)) "DATABASE_PASSWORD=hunter2".toList (by decide)

/-- C2: the mask pass produces the captured-value sequence in pattern-list
order (outer) and scan order (inner), with each pattern scanning the content
as already rewritten by the preceding patterns of the same pass; capsFold and
contFold state exactly this recursion, independently of the stateful
replacer. -/
theorem claim_C2_capture_order (pats : List Pat) (l : List Char) :
    maskFile pats l = (capsFold pats l, contFold pats l) :=
  maskFile_eq pats l

/-- A file step whose input content already comes out of a mask step is a
fixed point: nothing is captured, the content and the store are kept, and
nothing is reported. -/
theorem maskStep_fix (pats : List Pat) (path : String)
    (hfix : ∀ l, maskFile pats ((maskFile pats l).2) = ([], (maskFile pats l).2))
    (content : Option (List Char))
    (secrets secrets' : List (String × List (List Char))) :
    maskStep pats path (maskStep pats path content secrets).1 secrets'
      = ((maskStep pats path content secrets).1, secrets', []) := by
  cases content with
  | none => rfl
  | some l =>
    by_cases hc : (maskFile pats l).1 = []
    · have h1 : maskStep pats path (some l) secrets = (some l, secrets, []) := by
        simp only [maskStep]
        rw [if_pos hc]
      rw [h1]
      simp only [maskStep]
      rw [if_pos hc]
    · have h1 : maskStep pats path (some l) secrets
          = (some (maskFile pats l).2, insertA secrets path (maskFile pats l).1,
            ["Masked " ++ toString (maskFile pats l).1.length ++ " secrets in "
              ++ path]) := by
        simp only [maskStep]
        rw [if_neg hc]
      rw [h1]
      simp only [maskStep]
      rw [hfix l]
      simp

/-- Running mask twice leaves the system exactly as after the first run. -/
theorem maskSys_idem (s : Sys) : maskSys (maskSys s) = maskSys s := by
  simp only [maskSys, load_secrets]
  rw [maskStep_fix composePats composePath composeFix,
    maskStep_fix yamlPats yamlPath yamlFix]
  simp

/-- C3: running mask twice in succession produces identical output to running
it once: the second run leaves the whole system state (files, store, output)
unchanged, and per configured file the second mask pass over the
already-masked content captures zero additional secrets and keeps the content
byte-for-byte. -/
theorem claim_C3_mask_idempotent :
    (∀ s : Sys, maskSys (maskSys s) = maskSys s) ∧
    (∀ l : List Char,
      maskFile composePats ((maskFile composePats l).2)
        = ([], (maskFile composePats l).2)) ∧
    (∀ l : List Char,
      maskFile yamlPats ((maskFile yamlPats l).2)
        = ([], (maskFile yamlPats l).2)) :=
  ⟨maskSys_idem, composeFix, yamlFix⟩

/-- C4: for every file content and stored sequence, the unmask fold drops
exactly one stored value per masked-form match in the dynamic pass order, so
it restores only the first values in scan order; the reported count, stored
length minus remaining length, equals the number of matches available
clipped by the stored length; the content is the event render, and with an
exhausted store the pass changes nothing and raises no error. -/
theorem claim_C4_partial_restoration (pats : List Pat) (stored : List (List Char))
    (l : List Char) (hpats : ∀ p ∈ pats, isOrigPat p = true) :
    (unmaskFile pats stored l).1 = stored.drop (dynCount pats stored l) ∧
    stored.length - (unmaskFile pats stored l).1.length
      = min (dynCount pats stored l) stored.length ∧
    (unmaskFile pats stored l).2 = ucontFold pats stored l ∧
    unmaskFile pats [] l = ([], l) := by
  have h1 : (unmaskFile pats stored l).1 = stored.drop (dynCount pats stored l) := by
    rw [unmaskFile_eq]
    exact remFold_drop pats hpats stored l
  refine ⟨h1, ?_, ?_, unmaskFile_nil_store pats l⟩
  · rw [h1, List.length_drop]
    omega
  · rw [unmaskFile_eq]

theorem claim_C4_witness :
    (unmaskFile composePats ["a".toList]
        "DATABASE_PASSWORD=****** MYSQL_ROOT_PASSWORD=******".toList).1
      = ["a".toList].drop (dynCount composePats ["a".toList]
          "DATABASE_PASSWORD=****** MYSQL_ROOT_PASSWORD=******".toList) ∧
    (["a".toList] : List (List Char)).length -
        (unmaskFile composePats ["a".toList]
          "DATABASE_PASSWORD=****** MYSQL_ROOT_PASSWORD=******".toList).1.length
      = min (dynCount composePats ["a".toList]
            "DATABASE_PASSWORD=****** MYSQL_ROOT_PASSWORD=******".toList)
          (["a".toList] : List (List Char)).length ∧
    (unmaskFile composePats ["a".toList]
        "DATABASE_PASSWORD=****** MYSQL_ROOT_PASSWORD=******".toList).2
      = ucontFold composePats ["a".toList]
          "DATABASE_PASSWORD=****** MYSQL_ROOT_PASSWORD=******".toList ∧
    unmaskFile composePats []
        "DATABASE_PASSWORD=****** MYSQL_ROOT_PASSWORD=******".toList
      = ([], "DATABASE_PASSWORD=****** MYSQL_ROOT_PASSWORD=******".toList) :=
  claim_C4_partial_restoration composePats ["a".toList]
    "DATABASE_PASSWORD=****** MYSQL_ROOT_PASSWORD=******".toList (by decide)

/-- C5 (counterexample): positional correctness with duplicates fails as
stated.  In the counterexample file the first pattern's value zone contains
the literal value x in two places and mask does record two separate entries,
but unmask restores the first of those two occurrences to a different stored
value (a), because a nested assignment shifted the positional pairing. -/
theorem claim_C5_duplicates_counterexample :
    (maskFile composePats ce5Content).1.count "x".toList = 2 ∧
    (unmaskSys (maskSys ⟨some ce5Content, none, StoreDisk.absent, []⟩)).compose
      = some "MYSQL_ROOT_PASSWORD=x DATABASE_PASSWORD=a DATABASE_PASSWORD=x".toList ∧
    ¬ (unmaskSys (maskSys ⟨some ce5Content, none, StoreDisk.absent, []⟩)).compose
      = some ce5Content := by decide

/-- C5 (amended): the captured sequence always keeps one entry per match in
scan order, so equal values give separate entries (a sequence, not a set);
and for a single configured pattern with no mask-valued zones, unmask
restores every occurrence, duplicates included, to its own recorded value,
reproducing the file byte for byte. -/
theorem claim_C5_duplicates_amended (p : Pat)
    (hp : p ∈ composePats ∨ p ∈ yamlPats) (l : List Char)
    (h : noMaskVals p l = true) :
    (maskFile [p] l).1 = matVals (scan p l) ∧
    unmaskFile [p] (maskFile [p] l).1 (maskFile [p] l).2 = ([], l) := by
  constructor
  · rw [maskFile_eq]
    show capsFold [p] l = matVals (scan p l)
    rw [capsFold, capsFold, List.append_nil]
    exact mCaps_eq_matVals (scan p l) h
  · exact roundtrip_single p (memConfig_isOrig hp) l h

theorem claim_C5_duplicates_amended_witness :
    (maskFile [Pat.docker "DATABASE_PASSWORD=".toList]
        "DATABASE_PASSWORD=x DATABASE_PASSWORD=x".toList).1
      = matVals (scan (Pat.docker "DATABASE_PASSWORD=".toList)
          "DATABASE_PASSWORD=x DATABASE_PASSWORD=x".toList) ∧
    unmaskFile [Pat.docker "DATABASE_PASSWORD=".toList]
        (maskFile [Pat.docker "DATABASE_PASSWORD=".toList]
          "DATABASE_PASSWORD=x DATABASE_PASSWORD=x".toList).1
        (maskFile [Pat.docker "DATABASE_PASSWORD=".toList]
          "DATABASE_PASSWORD=x DATABASE_PASSWORD=x".toList).2
      = ([], "DATABASE_PASSWORD=x DATABASE_PASSWORD=x".toList) :=
  claim_C5_duplicates_amended (Pat.docker "DATABASE_PASSWORD=".toList)
    (Or.inl (by decide)) "DATABASE_PASSWORD=x DATABASE_PASSWORD=x".toList
    (by decide)

/-- C6: with the store file absent, or failing to parse (in which case
loading logs the error and yields an empty mapping), unmask modifies no
target files, leaves the store untouched, and prints the no-secrets
notice. -/
theorem claim_C6_unmask_empty_store (s : Sys)
    (h : s.disk = StoreDisk.absent ∨ s.disk = StoreDisk.corrupt) :
    (load_secrets s.disk).1 = [] ∧
    (s.disk = StoreDisk.corrupt →
      (load_secrets s.disk).2 = ["Error loading secrets"]) ∧
    (unmaskSys s).compose = s.compose ∧
    (unmaskSys s).yamlCfg = s.yamlCfg ∧
    (unmaskSys s).disk = s.disk ∧
    (unmaskSys s).out = s.out ++ (load_secrets s.disk).2 ++ [noSecretsMsg] := by
  rcases h with h | h <;> simp [unmaskSys, load_secrets, h]

theorem claim_C6_witness :
    (load_secrets (Sys.mk (some "DATABASE_PASSWORD=x".toList) none
        StoreDisk.corrupt []).disk).1 = [] ∧
    ((Sys.mk (some "DATABASE_PASSWORD=x".toList) none
        StoreDisk.corrupt []).disk = StoreDisk.corrupt →
      (load_secrets (Sys.mk (some "DATABASE_PASSWORD=x".toList) none
        StoreDisk.corrupt []).disk).2 = ["Error loading secrets"]) ∧
    (unmaskSys (Sys.mk (some "DATABASE_PASSWORD=x".toList) none
        StoreDisk.corrupt [])).compose
      = (Sys.mk (some "DATABASE_PASSWORD=x".toList) none
        StoreDisk.corrupt []).compose ∧
    (unmaskSys (Sys.mk (some "DATABASE_PASSWORD=x".toList) none
        StoreDisk.corrupt [])).yamlCfg
      = (Sys.mk (some "DATABASE_PASSWORD=x".toList) none
        StoreDisk.corrupt []).yamlCfg ∧
    (unmaskSys (Sys.mk (some "DATABASE_PASSWORD=x".toList) none
        StoreDisk.corrupt [])).disk
      = (Sys.mk (some "DATABASE_PASSWORD=x".toList) none
        StoreDisk.corrupt []).disk ∧
    (unmaskSys (Sys.mk (some "DATABASE_PASSWORD=x".toList) none
        StoreDisk.corrupt [])).out
      = (Sys.mk (some "DATABASE_PASSWORD=x".toList) none
          StoreDisk.corrupt []).out ++
        (load_secrets (Sys.mk (some "DATABASE_PASSWORD=x".toList) none
          StoreDisk.corrupt []).disk).2 ++ [noSecretsMsg] :=
  claim_C6_unmask_empty_store
    (Sys.mk (some "DATABASE_PASSWORD=x".toList) none StoreDisk.corrupt [])
    (Or.inr rfl)

/-- C7: per configured file, after all patterns are processed mask writes the
rewritten content back and stores the captured sequence under the file's key,
replacing any previous entry, exactly when at least one value was captured;
with zero captures the file keeps its old content, no entry is created and a
previous entry for that file survives unchanged. -/
theorem claim_C7_mask_write_condition (s : Sys)
    (m : List (String × List (List Char))) (l1 l2 : List Char)
    (hd : s.disk = StoreDisk.good m)
    (h1 : s.compose = some l1) (h2 : s.yamlCfg = some l2) :
    ((maskFile composePats l1).1 = [] → (maskSys s).compose = some l1) ∧
    ((maskFile composePats l1).1 ≠ [] →
      (maskSys s).compose = some (maskFile composePats l1).2) ∧
    ((maskFile yamlPats l2).1 = [] → (maskSys s).yamlCfg = some l2) ∧
    ((maskFile yamlPats l2).1 ≠ [] →
      (maskSys s).yamlCfg = some (maskFile yamlPats l2).2) ∧
    ((maskFile composePats l1).1 ≠ [] →
      lookupA (storeMapOf (maskSys s).disk) composePath
        = some (maskFile composePats l1).1) ∧
    ((maskFile composePats l1).1 = [] →
      lookupA (storeMapOf (maskSys s).disk) composePath
        = lookupA m composePath) ∧
    ((maskFile yamlPats l2).1 ≠ [] →
      lookupA (storeMapOf (maskSys s).disk) yamlPath
        = some (maskFile yamlPats l2).1) ∧
    ((maskFile yamlPats l2).1 = [] →
      lookupA (storeMapOf (maskSys s).disk) yamlPath
        = lookupA m yamlPath) := by
  have hne : composePath ≠ yamlPath := by decide
  have hne' : yamlPath ≠ composePath := by decide
  by_cases e1 : (maskFile composePats l1).1 = [] <;>
    by_cases e2 : (maskFile yamlPats l2).1 = [] <;>
      simp [maskSys, maskStep, hd, h1, h2, load_secrets, e1, e2, storeMapOf,
        lookupA_insertA_same, lookupA_insertA_other, hne, hne']

theorem claim_C7_witness :
    ((maskFile composePats "DATABASE_PASSWORD=x".toList).1 = [] →
      (maskSys (Sys.mk (some "DATABASE_PASSWORD=x".toList) (some "y: 1".toList)
        (StoreDisk.good [(composePath, ["old".toList])]) [])).compose
        = some "DATABASE_PASSWORD=x".toList) ∧
    ((maskFile composePats "DATABASE_PASSWORD=x".toList).1 ≠ [] →
      (maskSys (Sys.mk (some "DATABASE_PASSWORD=x".toList) (some "y: 1".toList)
        (StoreDisk.good [(composePath, ["old".toList])]) [])).compose
        = some (maskFile composePats "DATABASE_PASSWORD=x".toList).2) ∧
    ((maskFile yamlPats "y: 1".toList).1 = [] →
      (maskSys (Sys.mk (some "DATABASE_PASSWORD=x".toList) (some "y: 1".toList)
        (StoreDisk.good [(composePath, ["old".toList])]) [])).yamlCfg
        = some "y: 1".toList) ∧
    ((maskFile yamlPats "y: 1".toList).1 ≠ [] →
      (maskSys (Sys.mk (some "DATABASE_PASSWORD=x".toList) (some "y: 1".toList)
        (StoreDisk.good [(composePath, ["old".toList])]) [])).yamlCfg
        = some (maskFile yamlPats "y: 1".toList).2) ∧
    ((maskFile composePats "DATABASE_PASSWORD=x".toList).1 ≠ [] →
      lookupA (storeMapOf (maskSys (Sys.mk (some "DATABASE_PASSWORD=x".toList)
          (some "y: 1".toList)
          (StoreDisk.good [(composePath, ["old".toList])]) [])).disk) composePath
        = some (maskFile composePats "DATABASE_PASSWORD=x".toList).1) ∧
    ((maskFile composePats "DATABASE_PASSWORD=x".toList).1 = [] →
      lookupA (storeMapOf (maskSys (Sys.mk (some "DATABASE_PASSWORD=x".toList)
          (some "y: 1".toList)
          (StoreDisk.good [(composePath, ["old".toList])]) [])).disk) composePath
        = lookupA [(composePath, ["old".toList])] composePath) ∧
    ((maskFile yamlPats "y: 1".toList).1 ≠ [] →
      lookupA (storeMapOf (maskSys (Sys.mk (some "DATABASE_PASSWORD=x".toList)
          (some "y: 1".toList)
          (StoreDisk.good [(composePath, ["old".toList])]) [])).disk) yamlPath
        = some (maskFile yamlPats "y: 1".toList).1) ∧
    ((maskFile yamlPats "y: 1".toList).1 = [] →
      lookupA (storeMapOf (maskSys (Sys.mk (some "DATABASE_PASSWORD=x".toList)
          (some "y: 1".toList)
          (StoreDisk.good [(composePath, ["old".toList])]) [])).disk) yamlPath
        = lookupA [(composePath, ["old".toList])] yamlPath) :=
  claim_C7_mask_write_condition
    (Sys.mk (some "DATABASE_PASSWORD=x".toList) (some "y: 1".toList)
      (StoreDisk.good [(composePath, ["old".toList])]) [])
    [(composePath, ["old".toList])]
    "DATABASE_PASSWORD=x".toList "y: 1".toList rfl rfl rfl

/-- C8: for every pass of mask and of unmask, the content decomposes into
scan events whose concatenation is the input; the rewritten content is the
event render, which copies every literal character and substitutes only the
middle value zone of each match, keeping the matched prefix and suffix
groups byte for byte; and every masked-form match has the mask token as its
value zone, so unmask substitutes only zones currently equal to the mask
token. -/
theorem claim_C8_zone_substitution (p : Pat) (l : List Char)
    (fs cur : List (List Char)) :
    evConcat (scan p l) = l ∧
    (reSub p mask_replacer fs l).2 = mRender (scan p l) ∧
    evConcat (scan (maskedForm p) l) = l ∧
    (reSub (maskedForm p) unmask_replacer cur l).2
      = uRender (scan (maskedForm p) l) cur ∧
    (scan (maskedForm p) l).all evMasked = true := by
  refine ⟨evConcat_scan p l, ?_, evConcat_scan (maskedForm p) l, ?_,
    scan_all_masked (maskedForm p) (isMaskedPat_maskedForm p) l⟩
  · rw [reSub_mask_eq]
  · rw [reSub_unmask_eq]

/-- C9: a mask-token occurrence in a position not matching the derived
masked-form pattern is inert under unmask: when the masked-form scan of the
content finds no match at all, the pass copies the content unchanged and
consumes no stored value. -/
theorem claim_C9_stray_tokens_inert (p : Pat) (cur : List (List Char))
    (l : List Char)
    (hall : (scan (maskedForm p) l).all isLitEv = true) :
    reSub (maskedForm p) unmask_replacer cur l = (cur, l) :=
  unmask_all_lit (maskedForm p) l cur hall

theorem claim_C9_witness :
    reSub (maskedForm (Pat.docker "DATABASE_PASSWORD=".toList)) unmask_replacer
        ["secret".toList] "stray ****** here".toList
      = (["secret".toList], "stray ****** here".toList) :=
  claim_C9_stray_tokens_inert (Pat.docker "DATABASE_PASSWORD=".toList)
    ["secret".toList] "stray ****** here".toList (by decide)

/-- C10: a quoted field whose value is the empty string is still treated as
a secret: mask appends the empty string to the stored sequence, replaces the
empty zone with the mask token, counts it in the reported total, and unmask
restores it to the empty string. -/
theorem claim_C10_empty_secret_captured :
    (maskSys ⟨none, some "password: \"\"".toList, StoreDisk.absent, []⟩).yamlCfg
      = some "password: \"******\"".toList ∧
    (maskSys ⟨none, some "password: \"\"".toList, StoreDisk.absent, []⟩).disk
      = StoreDisk.good [(yamlPath, [[]])] ∧
    (maskSys ⟨none, some "password: \"\"".toList, StoreDisk.absent, []⟩).out
      = ["Masked 1 secrets in configs/config.yaml"] ∧
    (unmaskSys (maskSys ⟨none, some "password: \"\"".toList,
        StoreDisk.absent, []⟩)).yamlCfg
      = some "password: \"\"".toList := by decide

end Secrets
